import Mathlib

/-!
# Verification of the ezdxf `RTree` spatial search tree (`src/ezdxf/math/rtree.py`)

Shallow embedding conventions:

* Python floats are modelled as exact rationals (`ℚ`); every arithmetic
  operation the module performs on coordinates (add, sub, multiply by 0.5,
  compare) is exact on the inputs we reason about, so `ℚ` is a faithful model.
* The only irrational quantity in the module is the Euclidean distance
  `Vec3.distance`, which is the square root of a rational.  Distances are
  therefore represented by their squares (`Vec3.sqDist`), and the
  `nn_dist` value threaded through `_nearest_neighbor` (a distance, or the
  float `INF` at the root call) is represented as `Option ℚ` carrying the
  squared distance, with `none` standing for `INF`.  Every comparison the
  source performs on distances is reproduced exactly under this encoding,
  and bridging lemmas relate the encoded comparisons to `Real.sqrt`.
* The point type `Vec3` and the box type `BoundingBox` are external
  collaborators of the module (imported from `ezdxf.math`); they are
  modelled from the spec's description of their interface (§3/§6 of the
  spec): axis-aligned boxes with inclusive `inside` and `has_overlap`
  tests, `center`, `size`, and construction/extension from points.
-/

/-- A 3D point/vector with exact rational coordinates, modelling the
`ezdxf.math.Vec3`/`AnyVec` point type (2D points are treated as 3D points
with a degenerate third axis, as the spec prescribes). -/
structure Vec3 where
  x : ℚ
  y : ℚ
  z : ℚ
deriving DecidableEq, Repr

/-!
The standard rational arithmetic operations of Batteries are marked
irreducible, so they do not evaluate inside `decide`/`rfl` proofs about
concrete inputs.  The model therefore performs its arithmetic through the
kernel-computable `qadd`/`qsub`/`qmul` below, each proved equal to the
corresponding standard operation; all algebraic reasoning goes through
those bridge lemmas.
-/

/-- Kernel-computable rational addition (equals `a + b`, see `qadd_eq`). -/
def qadd (a b : ℚ) : ℚ := mkRat (a.num * b.den + b.num * a.den) (a.den * b.den)

/-- Kernel-computable rational subtraction (equals `a - b`, see `qsub_eq`). -/
def qsub (a b : ℚ) : ℚ := mkRat (a.num * b.den - b.num * a.den) (a.den * b.den)

/-- Kernel-computable rational multiplication (equals `a * b`, see `qmul_eq`). -/
def qmul (a b : ℚ) : ℚ := mkRat (a.num * b.num) (a.den * b.den)

theorem qadd_eq (a b : ℚ) : qadd a b = a + b := by
  rw [qadd, Rat.mkRat_eq_div]
  have ha : ((a.den : ℚ)) ≠ 0 := by exact_mod_cast a.den_nz
  have hb : ((b.den : ℚ)) ≠ 0 := by exact_mod_cast b.den_nz
  conv_rhs => rw [← Rat.num_div_den a, ← Rat.num_div_den b]
  push_cast
  field_simp

theorem qsub_eq (a b : ℚ) : qsub a b = a - b := by
  rw [qsub, Rat.mkRat_eq_div]
  have ha : ((a.den : ℚ)) ≠ 0 := by exact_mod_cast a.den_nz
  have hb : ((b.den : ℚ)) ≠ 0 := by exact_mod_cast b.den_nz
  conv_rhs => rw [← Rat.num_div_den a, ← Rat.num_div_den b]
  push_cast
  field_simp
  ring

theorem qmul_eq (a b : ℚ) : qmul a b = a * b := by
  rw [qmul, Rat.mkRat_eq_div]
  have ha : ((a.den : ℚ)) ≠ 0 := by exact_mod_cast a.den_nz
  have hb : ((b.den : ℚ)) ≠ 0 := by exact_mod_cast b.den_nz
  conv_rhs => rw [← Rat.num_div_den a, ← Rat.num_div_den b]
  push_cast
  field_simp

/-- Componentwise addition (collaborator operation `__add__`). -/
def Vec3.add (a b : Vec3) : Vec3 := ⟨qadd a.x b.x, qadd a.y b.y, qadd a.z b.z⟩

@[simp] theorem Vec3.add_def (a b : Vec3) :
    a.add b = ⟨a.x + b.x, a.y + b.y, a.z + b.z⟩ := by
  simp [Vec3.add, qadd_eq]

/-- Componentwise subtraction (collaborator operation `__sub__`). -/
def Vec3.sub (a b : Vec3) : Vec3 := ⟨qsub a.x b.x, qsub a.y b.y, qsub a.z b.z⟩

@[simp] theorem Vec3.sub_def (a b : Vec3) :
    a.sub b = ⟨a.x - b.x, a.y - b.y, a.z - b.z⟩ := by
  simp [Vec3.sub, qsub_eq]

/-- Scaling by a rational (collaborator operation `__mul__`, used as `* 0.5`). -/
def Vec3.scale (a : Vec3) (q : ℚ) : Vec3 := ⟨qmul a.x q, qmul a.y q, qmul a.z q⟩

@[simp] theorem Vec3.scale_def (a : Vec3) (q : ℚ) :
    a.scale q = ⟨a.x * q, a.y * q, a.z * q⟩ := by
  simp [Vec3.scale, qmul_eq]

/-- The square of the Euclidean distance between two points.  The source's
`Vec3.distance` is `math.hypot` of the coordinate differences, i.e.
`Real.sqrt (sqDist a b)`; distances are represented by their squares
throughout (see module docstring). -/
def Vec3.sqDist (a b : Vec3) : ℚ :=
  qadd (qadd (qmul (qsub a.x b.x) (qsub a.x b.x)) (qmul (qsub a.y b.y) (qsub a.y b.y)))
    (qmul (qsub a.z b.z) (qsub a.z b.z))

theorem Vec3.sqDist_eq (a b : Vec3) :
    a.sqDist b = (a.x - b.x) ^ 2 + (a.y - b.y) ^ 2 + (a.z - b.z) ^ 2 := by
  simp [Vec3.sqDist, qadd_eq, qsub_eq, qmul_eq]
  ring

/-- Rational minimum, written with an explicit `if` so that it reduces in the
kernel on concrete inputs. -/
def qmin (a b : ℚ) : ℚ := if a ≤ b then a else b

/-- Rational maximum, written with an explicit `if` so that it reduces in the
kernel on concrete inputs. -/
def qmax (a b : ℚ) : ℚ := if a ≤ b then b else a

/-- Rational absolute value, written with an explicit `if` so that it reduces
in the kernel on concrete inputs. -/
def qabs (a : ℚ) : ℚ := if a < 0 then -a else a

theorem qmin_eq_min (a b : ℚ) : qmin a b = min a b := by
  rw [qmin, min_def]

theorem qmax_eq_max (a b : ℚ) : qmax a b = max a b := by
  rw [qmax, max_def]

theorem qabs_eq_abs (a : ℚ) : qabs a = |a| := by
  rw [qabs]
  rcases lt_or_le a 0 with h | h
  · simp [h, abs_of_neg h]
  · simp [not_lt.mpr h, abs_of_nonneg h]

/-- Minimum of `f` over the nonempty list `p :: ps`. -/
def listMin (f : Vec3 → ℚ) : Vec3 → List Vec3 → ℚ
  | p, [] => f p
  | p, q :: qs => qmin (f p) (listMin f q qs)

/-- Maximum of `f` over the nonempty list `p :: ps`. -/
def listMax (f : Vec3 → ℚ) : Vec3 → List Vec3 → ℚ
  | p, [] => f p
  | p, q :: qs => qmax (f p) (listMax f q qs)

theorem listMin_le (f : Vec3 → ℚ) (p : Vec3) (ps : List Vec3) :
    ∀ q ∈ p :: ps, listMin f p ps ≤ f q := by
  induction ps generalizing p with
  | nil => intro q hq; simp at hq; simp [hq, listMin]
  | cons r rs ih =>
    intro q hq
    rw [listMin, qmin_eq_min]
    simp only [List.mem_cons] at hq
    rcases hq with rfl | hq
    · exact min_le_left _ _
    · exact le_trans (min_le_right _ _) (ih r q (List.mem_cons.mpr hq))

theorem le_listMax (f : Vec3 → ℚ) (p : Vec3) (ps : List Vec3) :
    ∀ q ∈ p :: ps, f q ≤ listMax f p ps := by
  induction ps generalizing p with
  | nil => intro q hq; simp at hq; simp [hq, listMax]
  | cons r rs ih =>
    intro q hq
    rw [listMax, qmax_eq_max]
    simp only [List.mem_cons] at hq
    rcases hq with rfl | hq
    · exact le_max_left _ _
    · exact le_trans (ih r q (List.mem_cons.mpr hq)) (le_max_right _ _)

theorem listMin_le_self (f : Vec3 → ℚ) (p : Vec3) (ps : List Vec3) :
    listMin f p ps ≤ f p :=
  listMin_le f p ps p (by simp)

theorem self_le_listMax (f : Vec3 → ℚ) (p : Vec3) (ps : List Vec3) :
    f p ≤ listMax f p ps :=
  le_listMax f p ps p (by simp)

theorem listMin_le_listMax (f : Vec3 → ℚ) (p : Vec3) (ps : List Vec3) :
    listMin f p ps ≤ listMax f p ps :=
  le_trans (listMin_le_self f p ps) (self_le_listMax f p ps)

/-- An axis-aligned bounding box, modelling `ezdxf.math.BoundingBox`
(external collaborator, modelled from the spec §3: minimum/maximum corners
in 3D). -/
structure BoundingBox where
  extmin : Vec3
  extmax : Vec3
deriving DecidableEq, Repr

/-- The box of a point list: componentwise minima and maxima.  Models the
collaborator's construction `BoundingBox(points)` and equally the
empty-box-then-`extend` sequence used by `InnerNode.__init__` (extending an
empty box with a point list accumulates exactly these minima/maxima).  The
source's empty box has no extents; the `[]` case is arbitrary and is never
reached from a constructed tree. -/
def BoundingBox.ofPoints : List Vec3 → BoundingBox
  | [] => ⟨⟨0, 0, 0⟩, ⟨0, 0, 0⟩⟩
  | p :: ps =>
    ⟨⟨listMin Vec3.x p ps, listMin Vec3.y p ps, listMin Vec3.z p ps⟩,
     ⟨listMax Vec3.x p ps, listMax Vec3.y p ps, listMax Vec3.z p ps⟩⟩

/-- Boundary-inclusive point-inside test (collaborator operation
`BoundingBox.inside`, inclusive per spec §3). -/
def BoundingBox.inside (b : BoundingBox) (p : Vec3) : Bool :=
  decide (b.extmin.x ≤ p.x) && decide (p.x ≤ b.extmax.x) &&
  decide (b.extmin.y ≤ p.y) && decide (p.y ≤ b.extmax.y) &&
  decide (b.extmin.z ≤ p.z) && decide (p.z ≤ b.extmax.z)

theorem BoundingBox.inside_iff (b : BoundingBox) (p : Vec3) :
    b.inside p = true ↔
      (b.extmin.x ≤ p.x ∧ p.x ≤ b.extmax.x) ∧
      (b.extmin.y ≤ p.y ∧ p.y ≤ b.extmax.y) ∧
      (b.extmin.z ≤ p.z ∧ p.z ≤ b.extmax.z) := by
  simp [BoundingBox.inside]
  tauto

/-- Boundary-inclusive box-overlap test (collaborator operation
`BoundingBox.has_overlap`, inclusive per spec §3): the boxes overlap iff on
every axis the intervals intersect. -/
def BoundingBox.overlaps (a b : BoundingBox) : Bool :=
  decide (a.extmin.x ≤ b.extmax.x) && decide (b.extmin.x ≤ a.extmax.x) &&
  decide (a.extmin.y ≤ b.extmax.y) && decide (b.extmin.y ≤ a.extmax.y) &&
  decide (a.extmin.z ≤ b.extmax.z) && decide (b.extmin.z ≤ a.extmax.z)

/-- Collaborator accessor `BoundingBox.center`: `(extmin + extmax) * 0.5`
(the factor is written `mkRat 1 2` so that it reduces in the kernel). -/
def BoundingBox.center (b : BoundingBox) : Vec3 :=
  (b.extmin.add b.extmax).scale (mkRat 1 2)

theorem BoundingBox.center_def (b : BoundingBox) :
    b.center = ⟨(b.extmin.x + b.extmax.x) / 2, (b.extmin.y + b.extmax.y) / 2,
      (b.extmin.z + b.extmax.z) / 2⟩ := by
  have h : (mkRat 1 2 : ℚ) = 1 / 2 := by norm_num [Rat.mkRat_eq_div]
  simp [BoundingBox.center, h]
  norm_num
  constructor
  · ring
  constructor
  · ring
  · ring

/-- Collaborator accessor `BoundingBox.size`: `extmax - extmin`. -/
def BoundingBox.size (b : BoundingBox) : Vec3 :=
  b.extmax.sub b.extmin

/-- The two-variant node hierarchy of the source (`LeafNode` / `InnerNode`,
both carrying a bounding-box summary). -/
inductive Node where
  | leaf (points : List Vec3) (bbox : BoundingBox)
  | inner (children : List Node) (bbox : BoundingBox)

/-- The stored bounding box of a node (`Node.bbox` slot in the source). -/
def Node.bbox : Node → BoundingBox
  | .leaf _ b => b
  | .inner _ b => b

/-- The corner points `[child.bbox.extmin, child.bbox.extmax]` of a child
list, in order; `InnerNode.__init__` extends an empty box with exactly this
point sequence. -/
def corners : List Node → List Vec3
  | [] => []
  | c :: cs => c.bbox.extmin :: c.bbox.extmax :: corners cs

/-- Models `LeafNode.__init__`: store the points and the box
`BoundingBox(self.points)`. -/
def LeafNode (points : List Vec3) : Node :=
  .leaf points (BoundingBox.ofPoints points)

/-- Models `InnerNode.__init__`: store the children and the union of all child
bounding boxes (an empty box extended with every child's corners). -/
def InnerNode (children : List Node) : Node :=
  .inner children (BoundingBox.ofPoints (corners children))

mutual

/-- All points transitively reachable under a node, in storage order. -/
def Node.toList : Node → List Vec3
  | .leaf pts _ => pts
  | .inner cs _ => toListL cs

/-- All points reachable under a list of nodes, in order. -/
def toListL : List Node → List Vec3
  | [] => []
  | c :: cs => c.toList ++ toListL cs

end

mutual

/-- Models `Node.__len__`: a leaf counts its points, an inner node sums over its
children. -/
def Node.len : Node → ℕ
  | .leaf pts _ => pts.length
  | .inner cs _ => lenL cs

/-- Models `sum(len(c) for c in children)`. -/
def lenL : List Node → ℕ
  | [] => 0
  | c :: cs => c.len + lenL cs

end

/-- Ceiling division on naturals; models `math.ceil(n / max_size)` (exact,
since the float division of the small integers involved is a model of the
rational value). -/
def cdiv (n m : ℕ) : ℕ := (n + m - 1) / m

/-- Coordinate access `vec[dim]` for `dim` in `{0, 1, 2}`. -/
def coordAt : ℕ → Vec3 → ℚ
  | 0 => Vec3.x
  | 1 => Vec3.y
  | _ => Vec3.z

/-- Models `size.index(max(size))`: the first coordinate axis of largest extent. -/
def widestDim (s : Vec3) : ℕ :=
  if s.y ≤ s.x ∧ s.z ≤ s.x then 0 else if s.z ≤ s.y then 1 else 2

/-- Insert a point into a list sorted by `key`, after all entries with a key
less than or equal to its own (the stable insertion step). -/
def insertSorted (key : Vec3 → ℚ) (p : Vec3) : List Vec3 → List Vec3
  | [] => [p]
  | q :: qs => if key q ≤ key p then q :: insertSorted key p qs else p :: q :: qs

/-- Stable sort by a rational key; models Python's stable in-place
`points.sort(key=...)` (the sorted value — the in-place aspect is treated
in the store-level model further below). -/
def sortByKey (key : Vec3 → ℚ) : List Vec3 → List Vec3
  | [] => []
  | p :: ps => insertSorted key p (sortByKey key ps)

/-- Partition a list into contiguous chunks of size `k` (`points[i : i + k]`
for `i in range(0, n, k)`).  The first argument is structural fuel — any
value at least the list length gives the chunking; the source's `range`
loop needs no fuel, but also never runs with `k = 0` (there `range(0,n,0)`
raises). -/
def chunks : ℕ → ℕ → List Vec3 → List (List Vec3)
  | 0, _, _ => []
  | _ + 1, _, [] => []
  | fu + 1, k, p :: ps => (p :: ps).take k :: chunks fu k ((p :: ps).drop k)

mutual

/-- Models `make_node(points, max_size, box_split)`: a leaf if the point count is
within capacity, otherwise an inner node over the split groups.  The first
argument is fuel, decremented on every call: the source recursion
terminates for `max_size ≥ 2` (proved below: fuel `5 * n + 1` suffices) but
diverges for `max_size < 2`, which the facade constructor guards against;
`none` signals exhausted fuel. -/
def make_node : ℕ → List Vec3 → ℕ → Option Node
  | 0, _, _ => none
  | f + 1, points, max_size =>
    if points.length ≤ max_size then some (LeafNode points)
    else (box_split f points max_size).map InnerNode
  termination_by structural f => f

/-- Models `box_split(points, max_size)`: sort the points along the widest axis of
their bounding box and build a node from each contiguous group of size
`k = ceil(n / max_size)`. -/
def box_split : ℕ → List Vec3 → ℕ → Option (List Node)
  | 0, _, _ => none
  | f + 1, points, max_size =>
    let n := points.length
    let dim := widestDim (BoundingBox.ofPoints points).size
    let sorted := sortByKey (coordAt dim) points
    let k := cdiv n max_size
    make_nodes f (chunks n k sorted) max_size
  termination_by structural f => f

/-- Build one node per group (the tuple comprehension in `box_split`). -/
def make_nodes : ℕ → List (List Vec3) → ℕ → Option (List Node)
  | 0, _, _ => none
  | _ + 1, [], _ => some []
  | f + 1, g :: gs, max_size =>
    match make_node f g max_size, make_nodes f gs max_size with
    | some nd, some nds => some (nd :: nds)
    | _, _ => none
  termination_by structural f => f

end

/-- The public search tree facade: owns the root node. -/
structure RTree where
  root : Node

/-- Models `RTree.__init__(points, max_node_size=5)`: validate the arguments, copy
the supplied points into a fresh list and build the tree.  `Except.error`
models `ValueError`; the fuel `5 * n + 1` is proved sufficient below, so
the `"unreachable"` branch never fires for validated input. -/
def RTree.new (points : List Vec3) (max_node_size : ℕ) : Except String RTree :=
  if max_node_size < 2 then .error "max node size must be > 1"
  else if points.length = 0 then .error "no points given"
  else
    match make_node (5 * points.length + 1) points max_node_size with
    | some nd => .ok ⟨nd⟩
    | none => .error "unreachable"

/-- Models `RTree.__len__`. -/
def RTree.len (t : RTree) : ℕ := t.root.len

/-- The absolute per-coordinate tolerance `1e-12` of the collaborator's
`isclose` (ezdxf default `abs_tol`), as an exact rational. -/
def vtol : ℚ := mkRat 1 1000000000000

/-- Modelled from the spec: the point type's tolerance-based equality
`Vec3.isclose` (spec §3/§6, "equality defined as within floating-point
tolerance"), as per-coordinate comparison within the absolute tolerance
`vtol`. -/
def Vec3.isclose (a b : Vec3) : Bool :=
  decide (qabs (qsub a.x b.x) ≤ vtol) &&
  decide (qabs (qsub a.y b.y) ≤ vtol) &&
  decide (qabs (qsub a.z b.z) ≤ vtol)

theorem Vec3.isclose_iff (a b : Vec3) :
    a.isclose b = true ↔
      |a.x - b.x| ≤ vtol ∧ |a.y - b.y| ≤ vtol ∧ |a.z - b.z| ≤ vtol := by
  simp [Vec3.isclose, qabs_eq_abs, qsub_eq]
  tauto

theorem vtol_pos : 0 < vtol := by
  norm_num [vtol, Rat.mkRat_eq_div]

theorem Vec3.isclose_refl (a : Vec3) : a.isclose a = true := by
  rw [Vec3.isclose_iff]
  have h : (0 : ℚ) ≤ vtol := le_of_lt vtol_pos
  simp [h]

/-- Comparison `distance < nn_dist` under the squared-distance encoding:
both operands are Euclidean distances represented by their squares
(`none` = the float `INF`); `sqrt a < sqrt b` iff `a < b` for the
nonnegative squares involved. -/
def odLt : Option ℚ → Option ℚ → Bool
  | none, _ => false
  | some _, none => true
  | some a, some b => decide (a < b)

/-- Models `min((target.distance(p), p) for p in points)` over the nonempty point
list `p :: ps`, returning the (squared) distance and the point.  A tie on
distance resolves to the earliest point; the source compares tied tuples
through the unordered point operands, and which equidistant point wins is
irrelevant to every property proved here. -/
def leafMin (t : Vec3) : Vec3 → List Vec3 → ℚ × Vec3
  | p, [] => (t.sqDist p, p)
  | p, q :: qs =>
    let r := leafMin t q qs
    if t.sqDist p ≤ r.1 then (t.sqDist p, p) else r

/-- Scan step of `find_closest_child`'s `min`: Python's `min` walks the
children left to right and evaluates `(d_new, child_new) < (d_best,
child_best)` for each later child.  Tuple comparison first tests
`d_new == d_best`; on an exact tie it falls through to comparing the two
`Node` operands, which define no ordering, and raises `TypeError` —
modelled by `none`.  Otherwise the strictly smaller distance wins.
`best` is the running minimum (squared distance and child index), `i` the
index of the next child. -/
def closestGo (t : Vec3) : ℚ × ℕ → ℕ → List Node → Option (ℚ × ℕ)
  | best, _, [] => some best
  | best, i, c :: cs =>
    if t.sqDist c.bbox.center = best.1 then none
    else if t.sqDist c.bbox.center < best.1 then
      closestGo t (t.sqDist c.bbox.center, i) (i + 1) cs
    else closestGo t best (i + 1) cs

/-- Models `find_closest_child(children, point)` over the nonempty child
list `c :: cs`, i.e. `min((point.distance(child.bbox.center), child) for
child in children)`: on success, the minimal (squared) center distance
together with the index of the child attaining it (the caller skips the
chosen child by identity; the index models that); `none` models the
`TypeError` the source raises when a later child's center distance exactly
ties the running minimum. -/
def closestD (t : Vec3) (c : Node) (cs : List Node) : Option (ℚ × ℕ) :=
  closestGo t (t.sqDist c.bbox.center, 0) 1 cs

theorem getElem?_some_mem {α : Type} :
    ∀ (l : List α) (i : ℕ) (x : α), l[i]? = some x → x ∈ l
  | [], _, _, h => by simp at h
  | a :: _, 0, x, h => by
    simp only [List.getElem?_cons_zero, Option.some.injEq] at h
    exact h ▸ List.mem_cons_self a _
  | _ :: as, i + 1, x, h => by
    simp only [List.getElem?_cons_succ] at h
    exact List.mem_cons.mpr (Or.inr (getElem?_some_mem as i x h))

theorem getElemD_mem_or {α : Type} (l : List α) (i : ℕ) (d : α) :
    l[i]?.getD d ∈ l ∨ l[i]?.getD d = d := by
  rcases e : l[i]? with _ | x
  · simp
  · simp only [Option.getD_some]
    exact Or.inl (getElem?_some_mem l i x e)

theorem sizeOf_getElemD_lt (c : Node) (rest : List Node) (i : ℕ) (b : BoundingBox) :
    sizeOf ((c :: rest)[i]?.getD c) < 1 + (1 + sizeOf c + sizeOf rest) + sizeOf b := by
  rcases getElemD_mem_or (c :: rest) i c with h | h
  · exact Nat.lt_of_lt_of_le (List.sizeOf_lt_of_mem h)
      (by simp only [List.cons.sizeOf_spec]; omega)
  · rw [h]
    omega

/-- Encodes `c ≤ sqrt q` for a rational `c` and a nonnegative rational square `q`:
true iff `c ≤ 0` or `c² ≤ q`. -/
def leSqrt (c q : ℚ) : Bool := decide (c ≤ 0) || decide (qmul c c ≤ q)

/-- Models `grow_box(box, nn_dist).inside(target)` under the encoding of
`nn_dist` as a squared distance (`none` = `INF`, where the grown box is
unbounded and the test is trivially true): on each axis,
`extmin - sqrt q ≤ t` iff `extmin - t ≤ sqrt q`, and symmetrically for
`extmax`. -/
def growBoxInside (b : BoundingBox) (nnd : Option ℚ) (t : Vec3) : Bool :=
  match nnd with
  | none => true
  | some q =>
    leSqrt (qsub b.extmin.x t.x) q && leSqrt (qsub t.x b.extmax.x) q &&
    leSqrt (qsub b.extmin.y t.y) q && leSqrt (qsub t.y b.extmax.y) q &&
    leSqrt (qsub b.extmin.z t.z) q && leSqrt (qsub t.z b.extmax.z) q

mutual

/-- Models `Node._nearest_neighbor(target, nn, nn_dist)`: branch-and-bound
search threading the best point found so far and its (squared) distance.
A leaf takes the minimum distance over its points and keeps it if it
improves; an inner node first recurses into the child whose box center is
closest, then into every other child whose box, grown by the current best
distance, still contains the target.  The outer `Option` is the exception
path: `none` is the `TypeError` that `find_closest_child` raises on an
exact center-distance tie (see `closestD`), propagated out of the query.
The empty-leaf/empty-inner cases return the state unchanged; there the
source raises/asserts, and both are unreachable in constructed trees. -/
def Node.nearestNeighbor : Node → Vec3 → Option Vec3 → Option ℚ →
    Option (Option Vec3 × Option ℚ)
  | .leaf [] _, _, nn, nnd => some (nn, nnd)
  | .leaf (p :: ps) _, t, nn, nnd =>
    let m := leafMin t p ps
    some (if odLt (some m.1) nnd then (some m.2, some m.1) else (nn, nnd))
  | .inner [] _, _, nn, nnd => some (nn, nnd)
  | .inner (c :: rest) _, t, nn, nnd =>
    match closestD t c rest with
    | none => none
    | some di =>
      match ((c :: rest).getD di.2 c).nearestNeighbor t nn nnd with
      | none => none
      | some s1 => nnLoop t (c :: rest) 0 di.2 s1.1 s1.2
  termination_by nd _ _ _ => sizeOf nd
  decreasing_by
  all_goals simp_wf
  all_goals first
    | omega
    | exact sizeOf_getElemD_lt _ _ _ _

/-- The `for child in self.children` loop of `InnerNode._nearest_neighbor`:
`i` is the index of the head of the remaining list, `skip` the index of the
already-visited closest child (the `child is closest_child` identity test);
a `TypeError` raised inside a child's recursive search propagates. -/
def nnLoop : Vec3 → List Node → ℕ → ℕ → Option Vec3 → Option ℚ →
    Option (Option Vec3 × Option ℚ)
  | _, [], _, _, nn, nnd => some (nn, nnd)
  | t, c :: cs, i, skip, nn, nnd =>
    if i = skip then nnLoop t cs (i + 1) skip nn nnd
    else if growBoxInside c.bbox nnd t then
      match c.nearestNeighbor t nn nnd with
      | none => none
      | some r =>
        if odLt r.2 nnd then nnLoop t cs (i + 1) skip r.1 r.2
        else nnLoop t cs (i + 1) skip nn nnd
    else nnLoop t cs (i + 1) skip nn nnd
  termination_by _ cs _ _ _ _ => sizeOf cs
  decreasing_by
  all_goals simp_wf
  all_goals omega

end

/-- Models `RTree.nearest_neighbor(target)` (via `Node.nearest_neighbor`):
run the search from the root with no current best.  The outer `Option` is
the propagated `TypeError` of `find_closest_child`; the inner `Option`
models the `assert nn is not None`. -/
def RTree.nearest_neighbor (tr : RTree) (t : Vec3) : Option (Option Vec3) :=
  (tr.root.nearestNeighbor t none none).map Prod.fst

/-- Encodes `center.distance(p) <= radius` under the squared-distance encoding:
`sqrt q ≤ r` iff `0 ≤ r` and `q ≤ r²`. -/
def sqrtLe (q r : ℚ) : Bool := decide (0 ≤ r) && decide (q ≤ qmul r r)

/-- Models `is_sphere_intersecting_bbox(centroid, radius, center, size)`: the
separating-axis test between a sphere and a box. -/
def is_sphere_intersecting_bbox (centroid : Vec3) (radius : ℚ) (center : Vec3)
    (size : Vec3) : Bool :=
  let distance := centroid.sub center
  let idist := (size.scale (mkRat 1 2)).add ⟨radius, radius, radius⟩
  if qabs distance.x > idist.x then false
  else if qabs distance.y > idist.y then false
  else if qabs distance.z > idist.z then false
  else true

mutual

/-- Models `Node.points_in_sphere(center, radius)`: a leaf filters its points by
distance (boundary-inclusive), an inner node recurses only into children
whose box passes the sphere/box intersection test.  Materialized as a
list in traversal order (the source yields lazily). -/
def Node.points_in_sphere : Node → Vec3 → ℚ → List Vec3
  | .leaf pts _, c, r => pts.filter (fun p => sqrtLe (c.sqDist p) r)
  | .inner cs _, c, r => sphereL cs c r

/-- The child loop of `InnerNode.points_in_sphere`. -/
def sphereL : List Node → Vec3 → ℚ → List Vec3
  | [], _, _ => []
  | nd :: cs, c, r =>
    (if is_sphere_intersecting_bbox c r nd.bbox.center nd.bbox.size
      then nd.points_in_sphere c r else []) ++ sphereL cs c r

end

mutual

/-- Models `Node.points_in_bbox(bbox)`: a leaf filters its points by the
boundary-inclusive inside test, an inner node recurses only into children
whose box overlaps the query box.  Materialized as a list in traversal
order (the source yields lazily). -/
def Node.points_in_bbox : Node → BoundingBox → List Vec3
  | .leaf pts _, qb => pts.filter (fun p => qb.inside p)
  | .inner cs _, qb => bboxL cs qb

/-- The child loop of `InnerNode.points_in_bbox`. -/
def bboxL : List Node → BoundingBox → List Vec3
  | [], _ => []
  | nd :: cs, qb =>
    (if qb.overlaps nd.bbox then nd.points_in_bbox qb else []) ++ bboxL cs qb

end

mutual

/-- Models `Node.contains(point)`: a leaf scans its points with `isclose`; an
inner node tries children in order, entering only those whose box contains
the point, and returns true on the first hit. -/
def Node.contains : Node → Vec3 → Bool
  | .leaf pts _, point => pts.any (fun p => point.isclose p)
  | .inner cs _, point => containsL cs point

/-- The child loop of `InnerNode.contains`. -/
def containsL : List Node → Vec3 → Bool
  | [], _ => false
  | c :: cs, point => (c.bbox.inside point && c.contains point) || containsL cs point

end

mutual

/-- Every node of a tree: the node itself and, recursively, all nodes of
its children (used to state per-node invariants). -/
def Node.subnodes : Node → List Node
  | .leaf pts b => [.leaf pts b]
  | .inner cs b => .inner cs b :: subnodesL cs

/-- All nodes of a list of trees. -/
def subnodesL : List Node → List Node
  | [] => []
  | c :: cs => c.subnodes ++ subnodesL cs

end

/-- Models `RTree.contains(point)`. -/
def RTree.contains (tr : RTree) (point : Vec3) : Bool :=
  tr.root.contains point

/-- Models `RTree.points_in_sphere(center, radius)`. -/
def RTree.points_in_sphere (tr : RTree) (center : Vec3) (radius : ℚ) : List Vec3 :=
  tr.root.points_in_sphere center radius

/-- Models `RTree.points_in_bbox(bbox)`. -/
def RTree.points_in_bbox (tr : RTree) (qb : BoundingBox) : List Vec3 :=
  tr.root.points_in_bbox qb

/-! ### Permutation and partition lemmas for the construction -/

theorem insertSorted_perm (key : Vec3 → ℚ) (p : Vec3) (l : List Vec3) :
    List.Perm (insertSorted key p l) (p :: l) := by
  induction l with
  | nil => simp [insertSorted]
  | cons q qs ih =>
    rw [insertSorted]
    split
    · exact (ih.cons q).trans (List.Perm.swap p q qs)
    · exact List.Perm.refl _

theorem sortByKey_perm (key : Vec3 → ℚ) (l : List Vec3) :
    List.Perm (sortByKey key l) l := by
  induction l with
  | nil => simp [sortByKey]
  | cons p ps ih =>
    rw [sortByKey]
    exact (insertSorted_perm key p (sortByKey key ps)).trans (ih.cons p)

theorem sortByKey_length (key : Vec3 → ℚ) (l : List Vec3) :
    (sortByKey key l).length = l.length :=
  (sortByKey_perm key l).length_eq

theorem chunks_join (fu k : ℕ) (l : List Vec3) (hl : l.length ≤ fu) (hk : 1 ≤ k) :
    (chunks fu k l).flatten = l := by
  induction fu generalizing l with
  | zero =>
    have h : l = [] := List.length_eq_zero.mp (Nat.le_zero.mp hl)
    simp [h, chunks]
  | succ fu ih =>
    match l with
    | [] => simp [chunks]
    | p :: ps =>
      rw [chunks, List.flatten_cons]
      have hd : ((p :: ps).drop k).length ≤ fu := by
        simp only [List.length_drop, List.length_cons] at hl ⊢
        omega
      rw [ih _ hd]
      exact List.take_append_drop k (p :: ps)

theorem chunks_mem (fu k : ℕ) (l : List Vec3) (hl : l.length ≤ fu) (hk : 1 ≤ k) :
    ∀ g ∈ chunks fu k l, g ≠ [] ∧ g.length ≤ k := by
  induction fu generalizing l with
  | zero => simp [chunks]
  | succ fu ih =>
    match l with
    | [] => simp [chunks]
    | p :: ps =>
      rw [chunks]
      intro g hg
      rcases List.mem_cons.mp hg with rfl | hg
      · obtain ⟨j, rfl⟩ : ∃ j, k = j + 1 := ⟨k - 1, by omega⟩
        refine ⟨by simp, ?_⟩
        simpa using List.length_take_le (j + 1) (p :: ps)
      · have hd : ((p :: ps).drop k).length ≤ fu := by
          simp only [List.length_drop, List.length_cons] at hl ⊢
          omega
        exact ih _ hd g hg

theorem cdiv_pos (n m : ℕ) (hn : 1 ≤ n) (hm : 1 ≤ m) : 1 ≤ cdiv n m := by
  rw [cdiv, Nat.le_div_iff_mul_le (by omega)]
  omega

theorem cdiv_ge_two (n m : ℕ) (hm : 2 ≤ m) (h : m < n) : 2 ≤ cdiv n m := by
  rw [cdiv, Nat.le_div_iff_mul_le (by omega)]
  omega

theorem two_cdiv_le (n m : ℕ) (hm : 2 ≤ m) : 2 * cdiv n m ≤ n + 1 := by
  have h1 : cdiv n m * m ≤ n + m - 1 := Nat.div_mul_le_self _ _
  rcases Nat.eq_zero_or_pos (cdiv n m) with h | h
  · omega
  · have hm2 : 2 + (m - 2) = m := by omega
    have h2 : cdiv n m * 2 + cdiv n m * (m - 2) ≤ n + m - 1 := by
      rw [← Nat.mul_add, hm2]
      exact h1
    have h3 : m - 2 ≤ cdiv n m * (m - 2) := Nat.le_mul_of_pos_left _ h
    omega

theorem cdiv_succ (n k : ℕ) (hn : 1 ≤ n) (hk : 1 ≤ k) :
    cdiv n k = 1 + cdiv (n - k) k := by
  rcases Nat.le_total k n with h | h
  · have h1 : n + k - 1 = (n - k) + k - 1 + k := by omega
    rw [cdiv, cdiv, h1, Nat.add_div_right _ (by omega)]
    omega
  · have h1 : n - k = 0 := by omega
    have h2 : (n + k - 1) / k = 1 := by
      have h3 : n + k - 1 = (n - 1) + k := by omega
      rw [h3, Nat.add_div_right _ (by omega), Nat.div_eq_of_lt (by omega)]
    rw [cdiv, cdiv, h1, h2, Nat.div_eq_of_lt (by omega)]

theorem chunks_length (fu k : ℕ) (l : List Vec3) (hl : l.length ≤ fu) (hk : 1 ≤ k) :
    (chunks fu k l).length = cdiv l.length k := by
  have h0 : cdiv 0 k = 0 := by
    rw [cdiv]
    exact Nat.div_eq_of_lt (by omega)
  induction fu generalizing l with
  | zero =>
    have h : l = [] := List.length_eq_zero.mp (Nat.le_zero.mp hl)
    simp [h, chunks, h0]
  | succ fu ih =>
    match l with
    | [] => simp [chunks, h0]
    | p :: ps =>
      rw [chunks, List.length_cons]
      have hd : ((p :: ps).drop k).length ≤ fu := by
        simp only [List.length_drop, List.length_cons] at hl ⊢
        omega
      rw [ih _ hd, List.length_drop]
      rw [cdiv_succ (p :: ps).length k (by simp) hk]
      omega

/-! ### Basic equations for the mutually recursive node functions -/

@[simp] theorem toList_leaf (pts : List Vec3) (b : BoundingBox) :
    (Node.leaf pts b).toList = pts := by
  rw [Node.toList]

@[simp] theorem toList_inner (cs : List Node) (b : BoundingBox) :
    (Node.inner cs b).toList = toListL cs := by
  rw [Node.toList]

@[simp] theorem toListL_nil : toListL [] = [] := by
  rw [toListL]

@[simp] theorem toListL_cons (c : Node) (cs : List Node) :
    toListL (c :: cs) = c.toList ++ toListL cs := by
  rw [toListL]

@[simp] theorem len_leaf (pts : List Vec3) (b : BoundingBox) :
    (Node.leaf pts b).len = pts.length := by
  rw [Node.len]

@[simp] theorem len_inner (cs : List Node) (b : BoundingBox) :
    (Node.inner cs b).len = lenL cs := by
  rw [Node.len]

@[simp] theorem lenL_nil : lenL [] = 0 := by
  rw [lenL]

@[simp] theorem lenL_cons (c : Node) (cs : List Node) :
    lenL (c :: cs) = c.len + lenL cs := by
  rw [lenL]

theorem mem_toListL (p : Vec3) (cs : List Node) :
    p ∈ toListL cs ↔ ∃ c ∈ cs, p ∈ c.toList := by
  induction cs with
  | nil => simp
  | cons c cs ih => simp [ih]

mutual

theorem len_eq_toList_length : ∀ nd : Node, nd.len = nd.toList.length
  | .leaf pts b => by simp
  | .inner cs b => by simp [lenL_eq_toListL_length cs]

theorem lenL_eq_toListL_length : ∀ cs : List Node, lenL cs = (toListL cs).length
  | [] => by simp
  | c :: rest => by
    simp [len_eq_toList_length c, lenL_eq_toListL_length rest]

end

/-! ### Well-formed trees -/

/-- Exactly the node shapes produced by `make_node`: nonempty leaves built
by `LeafNode`, inner nodes with a nonempty child list built by
`InnerNode`, recursively. -/
inductive WF : Node → Prop
  | leaf (pts : List Vec3) (h : pts ≠ []) : WF (LeafNode pts)
  | inner (cs : List Node) (h : cs ≠ []) (hcs : ∀ c ∈ cs, WF c) : WF (InnerNode cs)

theorem wf_toList_ne_nil (nd : Node) (h : WF nd) : nd.toList ≠ [] := by
  induction h with
  | leaf pts hne => simpa [LeafNode] using hne
  | inner cs hne hcs ih =>
    match cs, hne with
    | c :: rest, _ =>
      have h1 : c.toList ≠ [] := ih c (by simp)
      simp only [InnerNode, toList_inner, toListL_cons]
      intro habs
      exact h1 (List.append_eq_nil.mp habs).1

/-! ### Tightness of bounding boxes -/

/-- Componentwise union of two boxes (proof device for relating an inner
node's box to its children's boxes). -/
def bbUnion (a b : BoundingBox) : BoundingBox :=
  ⟨⟨qmin a.extmin.x b.extmin.x, qmin a.extmin.y b.extmin.y, qmin a.extmin.z b.extmin.z⟩,
   ⟨qmax a.extmax.x b.extmax.x, qmax a.extmax.y b.extmax.y, qmax a.extmax.z b.extmax.z⟩⟩

theorem listMin_append (f : Vec3 → ℚ) (p q : Vec3) (ps qs : List Vec3) :
    listMin f p (ps ++ q :: qs) = qmin (listMin f p ps) (listMin f q qs) := by
  induction ps generalizing p with
  | nil => simp [listMin]
  | cons r rs ih =>
    simp only [List.cons_append, listMin, List.append_eq]
    rw [ih r]
    simp only [qmin_eq_min, min_assoc]

theorem listMax_append (f : Vec3 → ℚ) (p q : Vec3) (ps qs : List Vec3) :
    listMax f p (ps ++ q :: qs) = qmax (listMax f p ps) (listMax f q qs) := by
  induction ps generalizing p with
  | nil => simp [listMax]
  | cons r rs ih =>
    simp only [List.cons_append, listMax, List.append_eq]
    rw [ih r]
    simp only [qmax_eq_max, max_assoc]

theorem ofPoints_append (p q : Vec3) (ps qs : List Vec3) :
    BoundingBox.ofPoints ((p :: ps) ++ q :: qs) =
      bbUnion (BoundingBox.ofPoints (p :: ps)) (BoundingBox.ofPoints (q :: qs)) := by
  simp only [List.cons_append, BoundingBox.ofPoints, bbUnion]
  rw [listMin_append, listMin_append, listMin_append,
    listMax_append, listMax_append, listMax_append]

theorem ofPoints_pair (a b : Vec3) (h1 : a.x ≤ b.x) (h2 : a.y ≤ b.y) (h3 : a.z ≤ b.z) :
    BoundingBox.ofPoints [a, b] = ⟨a, b⟩ := by
  simp only [BoundingBox.ofPoints, listMin, listMax, qmin_eq_min, qmax_eq_max]
  rw [min_eq_left h1, min_eq_left h2, min_eq_left h3,
    max_eq_right h1, max_eq_right h2, max_eq_right h3]

theorem ofPoints_extmin_le_extmax (l : List Vec3) (h : l ≠ []) :
    (BoundingBox.ofPoints l).extmin.x ≤ (BoundingBox.ofPoints l).extmax.x ∧
    (BoundingBox.ofPoints l).extmin.y ≤ (BoundingBox.ofPoints l).extmax.y ∧
    (BoundingBox.ofPoints l).extmin.z ≤ (BoundingBox.ofPoints l).extmax.z := by
  match l with
  | p :: ps =>
    exact ⟨listMin_le_listMax _ p ps, listMin_le_listMax _ p ps, listMin_le_listMax _ p ps⟩

theorem ofPoints_inside_of_mem (l : List Vec3) (p : Vec3) (h : p ∈ l) :
    (BoundingBox.ofPoints l).inside p = true := by
  match l with
  | q :: qs =>
    rw [BoundingBox.inside_iff]
    exact ⟨⟨listMin_le _ q qs p h, le_listMax _ q qs p h⟩,
      ⟨listMin_le _ q qs p h, le_listMax _ q qs p h⟩,
      ⟨listMin_le _ q qs p h, le_listMax _ q qs p h⟩⟩

theorem inner_box_eq (cs : List Node) (hne : cs ≠ [])
    (hall : ∀ c ∈ cs, c.bbox = BoundingBox.ofPoints c.toList ∧ c.toList ≠ []) :
    BoundingBox.ofPoints (corners cs) = BoundingBox.ofPoints (toListL cs) := by
  induction cs with
  | nil => exact absurd rfl hne
  | cons c rest ih =>
    obtain ⟨hc, hcne⟩ := hall c (by simp)
    obtain ⟨pc, pcs, hpc⟩ : ∃ pc pcs, c.toList = pc :: pcs := by
      match htl : c.toList, hcne with
      | p :: ps, _ => exact ⟨p, ps, rfl⟩
    have hminmax := ofPoints_extmin_le_extmax c.toList hcne
    have hpair : BoundingBox.ofPoints [c.bbox.extmin, c.bbox.extmax] = c.bbox := by
      rw [hc, ofPoints_pair _ _ hminmax.1 hminmax.2.1 hminmax.2.2]
    match rest with
    | [] =>
      rw [corners, corners, toListL_cons, toListL_nil, List.append_nil, hpair, hc]
    | c2 :: rest2 =>
      have hrest : BoundingBox.ofPoints (corners (c2 :: rest2)) =
          BoundingBox.ofPoints (toListL (c2 :: rest2)) :=
        ih (by simp) (fun c' hc' => hall c' (by simp [hc']))
      obtain ⟨hc2, hc2ne⟩ := hall c2 (by simp)
      obtain ⟨q, qs, hq⟩ : ∃ q qs, toListL (c2 :: rest2) = q :: qs := by
        have h1 : c2.toList ≠ [] := hc2ne
        match htl2 : c2.toList, h1 with
        | p :: ps, _ =>
          refine ⟨p, ps ++ toListL rest2, ?_⟩
          rw [toListL_cons, htl2, List.cons_append]
      have hcorners : ∃ r rs, corners (c2 :: rest2) = r :: rs := ⟨_, _, rfl⟩
      obtain ⟨r, rs, hr⟩ := hcorners
      have step1 : corners (c :: c2 :: rest2) =
          [c.bbox.extmin, c.bbox.extmax] ++ corners (c2 :: rest2) := by
        rw [corners]
        simp
      calc BoundingBox.ofPoints (corners (c :: c2 :: rest2))
          = BoundingBox.ofPoints
            ([c.bbox.extmin, c.bbox.extmax] ++ corners (c2 :: rest2)) := by
              rw [step1]
        _ = bbUnion (BoundingBox.ofPoints [c.bbox.extmin, c.bbox.extmax])
            (BoundingBox.ofPoints (corners (c2 :: rest2))) := by
              rw [hr]
              exact ofPoints_append _ _ _ _
        _ = bbUnion c.bbox (BoundingBox.ofPoints (toListL (c2 :: rest2))) := by
              rw [hpair, hrest]
        _ = bbUnion (BoundingBox.ofPoints (pc :: pcs))
            (BoundingBox.ofPoints (q :: qs)) := by
              rw [hc, hpc, hq]
        _ = BoundingBox.ofPoints ((pc :: pcs) ++ q :: qs) :=
              (ofPoints_append _ _ _ _).symm
        _ = BoundingBox.ofPoints (toListL (c :: c2 :: rest2)) := by
              rw [toListL_cons, hpc, hq]

/-- Every well-formed node's stored box is the tight bound of the points
reachable under it. -/
theorem wf_bbox_eq (nd : Node) (h : WF nd) :
    nd.bbox = BoundingBox.ofPoints nd.toList := by
  induction h with
  | leaf pts hne => simp [LeafNode, Node.bbox]
  | inner cs hne hcs ih =>
    have h1 : ∀ c ∈ cs, c.bbox = BoundingBox.ofPoints c.toList ∧ c.toList ≠ [] :=
      fun c hc => ⟨ih c hc, wf_toList_ne_nil c (hcs c hc)⟩
    simp only [InnerNode, Node.bbox, toList_inner]
    exact inner_box_eq cs hne h1

/-- Every point reachable under a well-formed node lies inside its stored
bounding box (boundary-inclusive). -/
theorem mem_bbox (nd : Node) (h : WF nd) (p : Vec3) (hp : p ∈ nd.toList) :
    nd.bbox.inside p = true := by
  rw [wf_bbox_eq nd h]
  exact ofPoints_inside_of_mem _ p hp

/-! ### The construction theorem: `make_node` succeeds, with fuel `5n + 1`,
on every nonempty point list when `max_node_size ≥ 2`, and builds a
well-formed tree holding a permutation of the input. -/

theorem make_nodes_spec (m k : ℕ)
    (REC : ∀ g : List Vec3, g ≠ [] → g.length ≤ k → ∀ f, 5 * g.length + 1 ≤ f →
      ∃ nd, make_node f g m = some nd ∧ WF nd ∧ List.Perm nd.toList g) :
    ∀ (gs : List (List Vec3)) (f : ℕ), (∀ g ∈ gs, g ≠ [] ∧ g.length ≤ k) →
      5 * k + 1 + gs.length ≤ f →
      ∃ nds, make_nodes f gs m = some nds ∧ (∀ nd ∈ nds, WF nd) ∧
        List.Perm (toListL nds) gs.flatten ∧ nds.length = gs.length := by
  intro gs
  induction gs with
  | nil =>
    intro f hg hf
    obtain ⟨f1, rfl⟩ : ∃ f1, f = f1 + 1 := ⟨f - 1, by omega⟩
    exact ⟨[], by rw [make_nodes], by simp, by simp, by simp⟩
  | cons g gs ih =>
    intro f hg hf
    obtain ⟨f1, rfl⟩ : ∃ f1, f = f1 + 1 := ⟨f - 1, by omega⟩
    obtain ⟨hgne, hgk⟩ := hg g (by simp)
    have hf1 : 5 * g.length + 1 ≤ f1 := by
      simp only [List.length_cons] at hf
      omega
    obtain ⟨nd, hnd, hwf, hperm⟩ := REC g hgne hgk f1 hf1
    have hf2 : 5 * k + 1 + gs.length ≤ f1 := by
      simp only [List.length_cons] at hf
      omega
    obtain ⟨nds, hnds, hwfs, hperms, hlen⟩ :=
      ih f1 (fun g' hg' => hg g' (by simp [hg'])) hf2
    refine ⟨nd :: nds, ?_, ?_, ?_, by simp [hlen]⟩
    · rw [make_nodes, hnd, hnds]
    · intro nd' h'
      rcases List.mem_cons.mp h' with rfl | h'
      · exact hwf
      · exact hwfs nd' h'
    · simp only [toListL_cons, List.flatten_cons]
      exact hperm.append hperms

theorem make_node_spec : ∀ (n : ℕ) (pts : List Vec3) (m f : ℕ), pts.length = n →
    2 ≤ m → pts ≠ [] → 5 * n + 1 ≤ f →
    ∃ nd, make_node f pts m = some nd ∧ WF nd ∧ List.Perm nd.toList pts ∧
      (pts.length ≤ m → nd = LeafNode pts) ∧
      (m < pts.length → ∃ cs, nd = InnerNode cs ∧
        cs.length = cdiv pts.length (cdiv pts.length m)) := by
  intro n
  induction n using Nat.strong_induction_on with
  | _ n IH =>
    intro pts m f hn hm hne hf
    have hn1 : 1 ≤ n := by
      rw [← hn]
      exact List.length_pos.mpr hne
    obtain ⟨f1, rfl⟩ : ∃ f1, f = f1 + 1 := ⟨f - 1, by omega⟩
    by_cases hcap : pts.length ≤ m
    · refine ⟨LeafNode pts, ?_, WF.leaf pts hne, ?_, fun _ => rfl,
        fun hlt => absurd hcap (by omega)⟩
      · simp [make_node, hcap]
      · simp [LeafNode]
    · have hnm : m < pts.length := by omega
      have hn3 : 3 ≤ n := by omega
      obtain ⟨f2, rfl⟩ : ∃ f2, f1 = f2 + 1 := ⟨f1 - 1, by omega⟩
      have hk2 : 2 ≤ cdiv pts.length m := cdiv_ge_two _ _ hm hnm
      have hkn : 2 * cdiv pts.length m ≤ pts.length + 1 := two_cdiv_le _ _ hm
      have hklt : cdiv pts.length m < n := by omega
      have hslen : (sortByKey (coordAt (widestDim (BoundingBox.ofPoints pts).size))
          pts).length = pts.length := sortByKey_length _ _
      have hchunks_mem := chunks_mem pts.length (cdiv pts.length m) _
        (le_of_eq hslen) (by omega)
      have hchunks_join := chunks_join pts.length (cdiv pts.length m) _
        (le_of_eq hslen) (by omega)
      have hchunks_len := chunks_length pts.length (cdiv pts.length m) _
        (le_of_eq hslen) (by omega)
      have hG : 2 * cdiv pts.length (cdiv pts.length m) ≤ pts.length + 1 :=
        two_cdiv_le _ _ hk2
      have hG1 : 1 ≤ cdiv pts.length (cdiv pts.length m) :=
        cdiv_pos _ _ (by omega) (by omega)
      have hfuel : 5 * cdiv pts.length m + 1 +
          (chunks pts.length (cdiv pts.length m)
            (sortByKey (coordAt (widestDim (BoundingBox.ofPoints pts).size)) pts)).length
          ≤ f2 := by
        rw [hchunks_len, hslen]
        omega
      have REC : ∀ g : List Vec3, g ≠ [] → g.length ≤ cdiv pts.length m →
          ∀ f, 5 * g.length + 1 ≤ f →
          ∃ nd, make_node f g m = some nd ∧ WF nd ∧ List.Perm nd.toList g := by
        intro g hg1 hg2 f hf'
        obtain ⟨nd, h1, h2, h3, _, _⟩ :=
          IH g.length (by omega) g m f rfl hm hg1 hf'
        exact ⟨nd, h1, h2, h3⟩
      obtain ⟨nds, hnds, hwfs, hperms, hlen⟩ :=
        make_nodes_spec m (cdiv pts.length m) REC _ f2 hchunks_mem hfuel
      have hndsne : nds ≠ [] := by
        intro habs
        rw [habs] at hlen
        rw [hchunks_len, hslen] at hlen
        simp at hlen
        omega
      refine ⟨InnerNode nds, ?_, WF.inner nds hndsne hwfs, ?_, fun h => absurd h (by omega),
        fun _ => ⟨nds, rfl, by rw [hlen, hchunks_len, hslen]⟩⟩
      · simp only [make_node, if_neg hcap, box_split]
        rw [hnds]
        rfl
      · simp only [InnerNode, toList_inner]
        refine hperms.trans ?_
        rw [hchunks_join]
        exact sortByKey_perm _ _

/-! ### Facade-level construction lemmas -/

theorem RTree_new_inv (pts : List Vec3) (m : ℕ) (tr : RTree)
    (h : RTree.new pts m = .ok tr) :
    2 ≤ m ∧ pts ≠ [] ∧ WF tr.root ∧ List.Perm tr.root.toList pts := by
  rw [RTree.new] at h
  by_cases h1 : m < 2
  · simp [h1] at h
  · simp only [if_neg h1] at h
    by_cases h2 : pts.length = 0
    · simp [h2] at h
    · simp only [if_neg h2] at h
      have hne : pts ≠ [] := fun habs => h2 (by simp [habs])
      obtain ⟨nd, hnd, hwf, hperm, _, _⟩ :=
        make_node_spec pts.length pts m (5 * pts.length + 1) rfl (by omega) hne
          (le_refl _)
      rw [hnd] at h
      cases h
      exact ⟨by omega, hne, hwf, hperm⟩

theorem RTree_new_ok (pts : List Vec3) (m : ℕ) (hm : 2 ≤ m) (hne : pts ≠ []) :
    ∃ tr, RTree.new pts m = .ok tr := by
  obtain ⟨nd, hnd, _, _, _, _⟩ :=
    make_node_spec pts.length pts m (5 * pts.length + 1) rfl hm hne (le_refl _)
  refine ⟨⟨nd⟩, ?_⟩
  rw [RTree.new, if_neg (by omega), if_neg (by simp [hne]), hnd]

/-! ### Subnodes -/

@[simp] theorem subnodes_leaf (pts : List Vec3) (b : BoundingBox) :
    (Node.leaf pts b).subnodes = [.leaf pts b] := by
  rw [Node.subnodes]

@[simp] theorem subnodes_inner (cs : List Node) (b : BoundingBox) :
    (Node.inner cs b).subnodes = .inner cs b :: subnodesL cs := by
  rw [Node.subnodes]

@[simp] theorem subnodesL_nil : subnodesL [] = [] := by
  rw [subnodesL]

@[simp] theorem subnodesL_cons (c : Node) (cs : List Node) :
    subnodesL (c :: cs) = c.subnodes ++ subnodesL cs := by
  rw [subnodesL]

theorem self_mem_subnodes (nd : Node) : nd ∈ nd.subnodes := by
  match nd with
  | .leaf pts b => simp
  | .inner cs b => simp

mutual

theorem wf_subnodes : ∀ nd : Node, WF nd → ∀ sn ∈ nd.subnodes, WF sn
  | .leaf pts b => by
    intro h sn hsn
    simp only [subnodes_leaf, List.mem_singleton] at hsn
    exact hsn ▸ h
  | .inner cs b => by
    intro h sn hsn
    simp only [subnodes_inner, List.mem_cons] at hsn
    rcases hsn with rfl | hsn
    · exact h
    · have hcs : ∀ c ∈ cs, WF c := by
        cases h with
        | inner cs hne hcs => exact hcs
      exact wf_subnodesL cs hcs sn hsn

theorem wf_subnodesL : ∀ cs : List Node, (∀ c ∈ cs, WF c) → ∀ sn ∈ subnodesL cs, WF sn
  | [] => by
    intro _ sn hsn
    simp at hsn
  | c :: rest => by
    intro h sn hsn
    simp only [subnodesL_cons, List.mem_append] at hsn
    rcases hsn with hsn | hsn
    · exact wf_subnodes c (h c (by simp)) sn hsn
    · exact wf_subnodesL rest (fun c' hc' => h c' (by simp [hc'])) sn hsn

end

/-! ### Containment -/

@[simp] theorem contains_leaf (pts : List Vec3) (b : BoundingBox) (p : Vec3) :
    (Node.leaf pts b).contains p = pts.any (fun q => p.isclose q) := by
  rw [Node.contains]

@[simp] theorem contains_inner (cs : List Node) (b : BoundingBox) (p : Vec3) :
    (Node.inner cs b).contains p = containsL cs p := by
  rw [Node.contains]

@[simp] theorem containsL_nil (p : Vec3) : containsL [] p = false := by
  rw [containsL]

@[simp] theorem containsL_cons (c : Node) (cs : List Node) (p : Vec3) :
    containsL (c :: cs) p = ((c.bbox.inside p && c.contains p) || containsL cs p) := by
  rw [containsL]

mutual

theorem contains_sound : ∀ (nd : Node) (p : Vec3), nd.contains p = true →
    ∃ q ∈ nd.toList, p.isclose q = true
  | .leaf pts b => by
    intro p h
    simp only [contains_leaf, List.any_eq_true] at h
    simpa using h
  | .inner cs b => by
    intro p h
    simp only [contains_inner] at h
    obtain ⟨q, hq, hc⟩ := containsL_sound cs p h
    exact ⟨q, by simpa using hq, hc⟩

theorem containsL_sound : ∀ (cs : List Node) (p : Vec3), containsL cs p = true →
    ∃ q ∈ toListL cs, p.isclose q = true
  | [] => by
    intro p h
    simp at h
  | c :: rest => by
    intro p h
    simp only [containsL_cons, Bool.or_eq_true, Bool.and_eq_true] at h
    rcases h with ⟨_, h⟩ | h
    · obtain ⟨q, hq, hc⟩ := contains_sound c p h
      exact ⟨q, by simp [hq], hc⟩
    · obtain ⟨q, hq, hc⟩ := containsL_sound rest p h
      exact ⟨q, by simp [hq], hc⟩

end

mutual

theorem contains_complete : ∀ nd : Node, WF nd → ∀ p ∈ nd.toList, nd.contains p = true
  | .leaf pts b => by
    intro _ p hp
    simp only [toList_leaf] at hp
    simp only [contains_leaf, List.any_eq_true]
    exact ⟨p, hp, Vec3.isclose_refl p⟩
  | .inner cs b => by
    intro h p hp
    have hcs : ∀ c ∈ cs, WF c := by
      cases h with
      | inner cs hne hcs => exact hcs
    simp only [toList_inner, mem_toListL] at hp
    simp only [contains_inner]
    exact containsL_complete cs hcs p hp

theorem containsL_complete : ∀ cs : List Node, (∀ c ∈ cs, WF c) → ∀ p : Vec3,
    (∃ c ∈ cs, p ∈ c.toList) → containsL cs p = true
  | [] => by
    intro _ p hp
    simp at hp
  | c :: rest => by
    intro h p hp
    simp only [containsL_cons, Bool.or_eq_true, Bool.and_eq_true]
    rcases hp with ⟨c', hc', hp⟩
    rcases List.mem_cons.mp hc' with rfl | hc'
    · exact Or.inl ⟨mem_bbox c' (h c' (by simp)) p hp, contains_complete c' (h c' (by simp)) p hp⟩
    · exact Or.inr (containsL_complete rest (fun x hx => h x (by simp [hx])) p ⟨c', hc', hp⟩)

end

/-! ### Box-range query -/

@[simp] theorem pib_leaf (pts : List Vec3) (b : BoundingBox) (qb : BoundingBox) :
    (Node.leaf pts b).points_in_bbox qb = pts.filter (fun p => qb.inside p) := by
  rw [Node.points_in_bbox]

@[simp] theorem pib_inner (cs : List Node) (b : BoundingBox) (qb : BoundingBox) :
    (Node.inner cs b).points_in_bbox qb = bboxL cs qb := by
  rw [Node.points_in_bbox]

@[simp] theorem bboxL_nil (qb : BoundingBox) : bboxL [] qb = [] := by
  rw [bboxL]

@[simp] theorem bboxL_cons (c : Node) (cs : List Node) (qb : BoundingBox) :
    bboxL (c :: cs) qb =
      (if qb.overlaps c.bbox then c.points_in_bbox qb else []) ++ bboxL cs qb := by
  rw [bboxL]

theorem overlaps_of_common_point (a b : BoundingBox) (p : Vec3)
    (ha : a.inside p = true) (hb : b.inside p = true) : a.overlaps b = true := by
  rw [BoundingBox.inside_iff] at ha hb
  simp only [BoundingBox.overlaps, Bool.and_eq_true, decide_eq_true_eq]
  refine ⟨⟨⟨⟨⟨?_, ?_⟩, ?_⟩, ?_⟩, ?_⟩, ?_⟩ <;> linarith [ha.1.1, ha.1.2, ha.2.1.1,
    ha.2.1.2, ha.2.2.1, ha.2.2.2, hb.1.1, hb.1.2, hb.2.1.1, hb.2.1.2, hb.2.2.1, hb.2.2.2]

mutual

theorem pib_perm : ∀ nd : Node, WF nd → ∀ qb : BoundingBox,
    List.Perm (nd.points_in_bbox qb) (nd.toList.filter (fun p => qb.inside p))
  | .leaf pts b => by
    intro _ qb
    simp
  | .inner cs b => by
    intro h qb
    have hcs : ∀ c ∈ cs, WF c := by
      cases h with
      | inner cs hne hcs => exact hcs
    simpa using bboxL_perm cs hcs qb

theorem bboxL_perm : ∀ cs : List Node, (∀ c ∈ cs, WF c) → ∀ qb : BoundingBox,
    List.Perm (bboxL cs qb) ((toListL cs).filter (fun p => qb.inside p))
  | [] => by
    intro _ qb
    simp
  | c :: rest => by
    intro h qb
    simp only [bboxL_cons, toListL_cons, List.filter_append]
    have hrest := bboxL_perm rest (fun x hx => h x (by simp [hx])) qb
    by_cases hov : qb.overlaps c.bbox = true
    · rw [if_pos hov]
      exact (pib_perm c (h c (by simp)) qb).append hrest
    · rw [if_neg hov]
      have hnil : c.toList.filter (fun p => qb.inside p) = [] := by
        rw [List.filter_eq_nil]
        intro p hp habs
        exact hov (overlaps_of_common_point qb c.bbox p habs
          (mem_bbox c (h c (by simp)) p hp))
      rw [hnil, List.nil_append]
      exact hrest

end

/-! ### Sphere-range query -/

theorem sqDist_nonneg (a b : Vec3) : 0 ≤ a.sqDist b := by
  rw [Vec3.sqDist_eq]
  positivity

theorem sqrtLe_iff (q r : ℚ) : sqrtLe q r = true ↔ 0 ≤ r ∧ q ≤ r ^ 2 := by
  simp [sqrtLe, qmul_eq, pow_two]

/-- The encoded test `sqrtLe` says exactly `sqrt q ≤ r` over the reals. -/
theorem sqrtLe_iff_real (q r : ℚ) (hq : 0 ≤ q) :
    sqrtLe q r = true ↔ Real.sqrt (q : ℝ) ≤ (r : ℝ) := by
  rw [sqrtLe_iff]
  constructor
  · rintro ⟨hr, hqr⟩
    rw [show ((r : ℝ)) = Real.sqrt ((r : ℝ) ^ 2) from
      (Real.sqrt_sq (by exact_mod_cast hr)).symm]
    apply Real.sqrt_le_sqrt
    exact_mod_cast hqr
  · intro h
    have hr : (0 : ℝ) ≤ (r : ℝ) := le_trans (Real.sqrt_nonneg _) h
    refine ⟨by exact_mod_cast hr, ?_⟩
    have hs : Real.sqrt ((q : ℝ)) ^ 2 = (q : ℝ) := Real.sq_sqrt (by exact_mod_cast hq)
    have h2 : ((q : ℝ)) ≤ (r : ℝ) ^ 2 := by
      calc ((q : ℝ)) = Real.sqrt ((q : ℝ)) ^ 2 := hs.symm
        _ ≤ (r : ℝ) ^ 2 := pow_le_pow_left (Real.sqrt_nonneg _) h 2
    exact_mod_cast h2

@[simp] theorem pis_leaf (pts : List Vec3) (b : BoundingBox) (c : Vec3) (r : ℚ) :
    (Node.leaf pts b).points_in_sphere c r =
      pts.filter (fun p => sqrtLe (c.sqDist p) r) := by
  rw [Node.points_in_sphere]

@[simp] theorem pis_inner (cs : List Node) (b : BoundingBox) (c : Vec3) (r : ℚ) :
    (Node.inner cs b).points_in_sphere c r = sphereL cs c r := by
  rw [Node.points_in_sphere]

@[simp] theorem sphereL_nil (c : Vec3) (r : ℚ) : sphereL [] c r = [] := by
  rw [sphereL]

@[simp] theorem sphereL_cons (nd : Node) (cs : List Node) (c : Vec3) (r : ℚ) :
    sphereL (nd :: cs) c r =
      (if is_sphere_intersecting_bbox c r nd.bbox.center nd.bbox.size
        then nd.points_in_sphere c r else []) ++ sphereL cs c r := by
  rw [sphereL]

theorem mkRat_half : (mkRat 1 2 : ℚ) = 1 / 2 := by
  norm_num [Rat.mkRat_eq_div]

theorem is_sphere_iff (c : Vec3) (r : ℚ) (bc bs : Vec3) :
    is_sphere_intersecting_bbox c r bc bs = true ↔
      |c.x - bc.x| ≤ bs.x * (1 / 2) + r ∧ |c.y - bc.y| ≤ bs.y * (1 / 2) + r ∧
      |c.z - bc.z| ≤ bs.z * (1 / 2) + r := by
  rw [is_sphere_intersecting_bbox]
  simp only [Vec3.sub_def, Vec3.scale_def, Vec3.add_def, qabs_eq_abs, mkRat_half]
  split_ifs with h1 h2 h3
  · simp only [false_iff]
    rintro ⟨ha, _, _⟩
    exact absurd ha (not_le.mpr h1)
  · simp only [false_iff]
    rintro ⟨_, ha, _⟩
    exact absurd ha (not_le.mpr h2)
  · simp only [false_iff]
    rintro ⟨_, _, ha⟩
    exact absurd ha (not_le.mpr h3)
  · simp only [true_iff]
    exact ⟨not_lt.mp h1, not_lt.mp h2, not_lt.mp h3⟩

theorem axis_close (lo hi ca pa r s : ℚ) (h1 : lo ≤ pa) (h2 : pa ≤ hi)
    (hsq : (ca - pa) ^ 2 ≤ s) (hs : s ≤ r ^ 2) (hr : 0 ≤ r) :
    |ca - (lo + hi) / 2| ≤ (hi - lo) * (1 / 2) + r := by
  have habs : |ca - pa| ≤ r := by
    rw [abs_le]
    constructor <;> nlinarith
  rw [abs_le] at habs ⊢
  constructor <;> linarith [habs.1, habs.2]

/-- Completeness of the sphere/box pruning test: a child whose subtree
holds a point within the query radius always passes the test. -/
theorem sphere_prune (c : Vec3) (r : ℚ) (nd : Node) (h : WF nd) (p : Vec3)
    (hp : p ∈ nd.toList) (hq : sqrtLe (c.sqDist p) r = true) :
    is_sphere_intersecting_bbox c r nd.bbox.center nd.bbox.size = true := by
  rw [is_sphere_iff]
  have hin := mem_bbox nd h p hp
  rw [BoundingBox.inside_iff] at hin
  rw [sqrtLe_iff] at hq
  obtain ⟨hr, hqr⟩ := hq
  rw [Vec3.sqDist_eq] at hqr
  rw [BoundingBox.center_def]
  simp only [BoundingBox.size, Vec3.sub_def]
  refine ⟨?_, ?_, ?_⟩
  · exact axis_close _ _ _ p.x r _ hin.1.1 hin.1.2
      (le_refl _) (by nlinarith [sq_nonneg (c.y - p.y), sq_nonneg (c.z - p.z)]) hr
  · exact axis_close _ _ _ p.y r _ hin.2.1.1 hin.2.1.2
      (le_refl _) (by nlinarith [sq_nonneg (c.x - p.x), sq_nonneg (c.z - p.z)]) hr
  · exact axis_close _ _ _ p.z r _ hin.2.2.1 hin.2.2.2
      (le_refl _) (by nlinarith [sq_nonneg (c.x - p.x), sq_nonneg (c.y - p.y)]) hr

mutual

theorem pis_perm : ∀ nd : Node, WF nd → ∀ (c : Vec3) (r : ℚ),
    List.Perm (nd.points_in_sphere c r)
      (nd.toList.filter (fun p => sqrtLe (c.sqDist p) r))
  | .leaf pts b => by
    intro _ c r
    simp
  | .inner cs b => by
    intro h c r
    have hcs : ∀ x ∈ cs, WF x := by
      cases h with
      | inner cs hne hcs => exact hcs
    simpa using sphereL_perm cs hcs c r

theorem sphereL_perm : ∀ cs : List Node, (∀ x ∈ cs, WF x) → ∀ (c : Vec3) (r : ℚ),
    List.Perm (sphereL cs c r)
      ((toListL cs).filter (fun p => sqrtLe (c.sqDist p) r))
  | [] => by
    intro _ c r
    simp
  | nd :: rest => by
    intro h c r
    simp only [sphereL_cons, toListL_cons, List.filter_append]
    have hrest := sphereL_perm rest (fun x hx => h x (by simp [hx])) c r
    by_cases hov : is_sphere_intersecting_bbox c r nd.bbox.center nd.bbox.size = true
    · rw [if_pos hov]
      exact (pis_perm nd (h nd (by simp)) c r).append hrest
    · rw [if_neg hov]
      have hnil : nd.toList.filter (fun p => sqrtLe (c.sqDist p) r) = [] := by
        rw [List.filter_eq_nil]
        intro p hp habs
        exact hov (sphere_prune c r nd (h nd (by simp)) p hp habs)
      rw [hnil, List.nil_append]
      exact hrest

end

/-! ### Nearest-neighbor: order lemmas on encoded distances -/

/-- Order `a ≤ b` on encoded optional squared distances (`none` = `INF`). -/
def odLe : Option ℚ → Option ℚ → Prop
  | _, none => True
  | none, some _ => False
  | some a, some b => a ≤ b

theorem odLe_refl (a : Option ℚ) : odLe a a := by
  cases a <;> simp [odLe]

theorem odLe_trans (a b c : Option ℚ) (h1 : odLe a b) (h2 : odLe b c) : odLe a c := by
  cases a <;> cases b <;> cases c <;> simp_all [odLe]
  linarith

theorem odLe_of_odLt (a b : Option ℚ) (h : odLt a b = true) : odLe a b := by
  cases a <;> cases b <;> simp_all [odLt, odLe]
  linarith

theorem odLe_of_not_odLt (a b : Option ℚ) (h : odLt a b = false) : odLe b a := by
  cases a <;> cases b <;> simp_all [odLt, odLe]

theorem odLe_none_right (a : Option ℚ) : odLe a none := by
  cases a <;> simp [odLe]

/-! ### Nearest-neighbor: leaf minimum -/

theorem leafMin_fst (t : Vec3) (p : Vec3) (ps : List Vec3) :
    (leafMin t p ps).1 = t.sqDist (leafMin t p ps).2 := by
  induction ps generalizing p with
  | nil => simp [leafMin]
  | cons q qs ih =>
    simp only [leafMin]
    split
    · rfl
    · exact ih q

theorem leafMin_mem (t : Vec3) (p : Vec3) (ps : List Vec3) :
    (leafMin t p ps).2 ∈ p :: ps := by
  induction ps generalizing p with
  | nil => simp [leafMin]
  | cons q qs ih =>
    simp only [leafMin]
    split
    · simp
    · have := ih q
      simp only [List.mem_cons] at this ⊢
      tauto

theorem leafMin_le (t : Vec3) (p : Vec3) (ps : List Vec3) :
    ∀ q ∈ p :: ps, (leafMin t p ps).1 ≤ t.sqDist q := by
  induction ps generalizing p with
  | nil =>
    intro q hq
    simp only [List.mem_singleton] at hq
    simp [leafMin, hq]
  | cons q2 qs ih =>
    intro q hq
    simp only [leafMin]
    simp only [List.mem_cons] at hq
    split
    · next hle =>
      rcases hq with rfl | hq
      · exact le_refl _
      · exact le_trans hle (ih q2 q (List.mem_cons.mpr hq))
    · next hgt =>
      rcases hq with rfl | hq
      · exact le_of_lt (lt_of_not_le hgt)
      · exact ih q2 q (List.mem_cons.mpr hq)

/-! ### Nearest-neighbor: index lemmas -/

theorem mem_toListL_idx (p : Vec3) (cs : List Node) :
    p ∈ toListL cs ↔ ∃ j, ∃ hj : j < cs.length, p ∈ (cs.get ⟨j, hj⟩).toList := by
  induction cs with
  | nil => simp
  | cons c rest ih =>
    simp only [toListL_cons, List.mem_append, ih]
    constructor
    · rintro (h | ⟨j, hj, h⟩)
      · exact ⟨0, by simp, h⟩
      · exact ⟨j + 1, by simpa using hj, h⟩
    · rintro ⟨j, hj, h⟩
      match j with
      | 0 => exact Or.inl h
      | j + 1 => exact Or.inr ⟨j, by simpa using hj, h⟩

theorem getD_eq_get {α : Type} (l : List α) (i : ℕ) (d : α) (h : i < l.length) :
    l.getD i d = l.get ⟨i, h⟩ := by
  induction l generalizing i with
  | nil => simp at h
  | cons a as ih =>
    match i with
    | 0 => rfl
    | i + 1 => exact ih i (by simpa using h)

theorem getD_eq_default {α : Type} :
    ∀ (l : List α) (i : ℕ) (d : α), l.length ≤ i → l.getD i d = d
  | [], _, _, _ => rfl
  | _ :: _, 0, _, h => by simp at h
  | _ :: as, i + 1, d, h => getD_eq_default as i d (by simpa using h)

theorem getD_mem {α : Type} (l : List α) (i : ℕ) (d : α) (hd : d ∈ l) :
    l.getD i d ∈ l := by
  by_cases h : i < l.length
  · rw [getD_eq_get l i d h]
    exact l.get_mem _ _
  · rw [getD_eq_default l i d (le_of_not_lt h)]
    exact hd

/-! ### Nearest-neighbor: soundness of the grow-box pruning test -/

theorem leSqrt_iff (c q : ℚ) : leSqrt c q = true ↔ c ≤ 0 ∨ c ^ 2 ≤ q := by
  simp [leSqrt, qmul_eq, pow_two]

/-- The encoded one-sided test says exactly `c ≤ sqrt q` over the reals. -/
theorem leSqrt_iff_real (c q : ℚ) (hq : 0 ≤ q) :
    leSqrt c q = true ↔ (c : ℝ) ≤ Real.sqrt (q : ℝ) := by
  rw [leSqrt_iff]
  constructor
  · rintro (h | h)
    · exact le_trans (by exact_mod_cast h) (Real.sqrt_nonneg _)
    · calc (c : ℝ) ≤ |(c : ℝ)| := le_abs_self _
        _ = Real.sqrt ((c : ℝ) ^ 2) := (Real.sqrt_sq_eq_abs _).symm
        _ ≤ Real.sqrt ((q : ℝ)) := Real.sqrt_le_sqrt (by exact_mod_cast h)
  · intro h
    rcases le_or_lt c 0 with hc | hc
    · exact Or.inl hc
    · right
      have h2 : ((c : ℝ)) ^ 2 ≤ Real.sqrt ((q : ℝ)) ^ 2 :=
        pow_le_pow_left (by exact_mod_cast le_of_lt hc) h 2
      rw [Real.sq_sqrt (by exact_mod_cast hq)] at h2
      exact_mod_cast h2

theorem axis_grow (lo hi tx px s q : ℚ) (h1 : lo ≤ px) (h2 : px ≤ hi)
    (hsq : (tx - px) ^ 2 ≤ s) (hlt : s < q) :
    (lo - tx ≤ 0 ∨ (lo - tx) ^ 2 ≤ q) ∧ (tx - hi ≤ 0 ∨ (tx - hi) ^ 2 ≤ q) := by
  constructor
  · rcases le_or_lt (lo - tx) 0 with h | h
    · exact Or.inl h
    · right
      nlinarith
  · rcases le_or_lt (tx - hi) 0 with h | h
    · exact Or.inl h
    · right
      nlinarith

/-- Soundness of the pruning test: if the subtree of `b` holds a point
strictly closer to the target than the current best distance, the grown
box contains the target. -/
theorem grow_sound (b : BoundingBox) (q : ℚ) (t p : Vec3)
    (hin : b.inside p = true) (hlt : t.sqDist p < q) :
    growBoxInside b (some q) t = true := by
  rw [BoundingBox.inside_iff] at hin
  have hd := Vec3.sqDist_eq t p
  have hx := axis_grow b.extmin.x b.extmax.x t.x p.x (t.sqDist p) q
    hin.1.1 hin.1.2 (by rw [hd]; nlinarith [sq_nonneg (t.y - p.y), sq_nonneg (t.z - p.z)]) hlt
  have hy := axis_grow b.extmin.y b.extmax.y t.y p.y (t.sqDist p) q
    hin.2.1.1 hin.2.1.2 (by rw [hd]; nlinarith [sq_nonneg (t.x - p.x), sq_nonneg (t.z - p.z)]) hlt
  have hz := axis_grow b.extmin.z b.extmax.z t.z p.z (t.sqDist p) q
    hin.2.2.1 hin.2.2.2 (by rw [hd]; nlinarith [sq_nonneg (t.x - p.x), sq_nonneg (t.y - p.y)]) hlt
  simp only [growBoxInside, Bool.and_eq_true]
  rw [leSqrt_iff, leSqrt_iff, leSqrt_iff, leSqrt_iff, leSqrt_iff, leSqrt_iff]
  simp only [qsub_eq]
  exact ⟨⟨⟨⟨⟨hx.1, hx.2⟩, hy.1⟩, hy.2⟩, hz.1⟩, hz.2⟩

/-- Contrapositive form: a pruned child holds no point closer than the
current best distance. -/
theorem grow_prune (b : BoundingBox) (nnd : Option ℚ) (t p : Vec3)
    (hin : b.inside p = true) (hfalse : growBoxInside b nnd t = false) :
    odLe nnd (some (t.sqDist p)) := by
  match nnd with
  | none => simp [growBoxInside] at hfalse
  | some q =>
    show q ≤ t.sqDist p
    by_contra habs
    rw [grow_sound b q t p hin (lt_of_not_le habs)] at hfalse
    exact Bool.noConfusion hfalse

/-! ### Nearest-neighbor: the branch-and-bound invariant.

For every well-formed node, `_nearest_neighbor` returns either the incoming
state unchanged or a reachable point paired with its (squared) distance;
the returned distance never exceeds the incoming one; and it is a lower
bound on the distance from the target to every reachable point. -/

mutual

theorem nn_spec : ∀ nd : Node, WF nd → ∀ (t : Vec3) (nn0 : Option Vec3) (nnd0 : Option ℚ)
    (r : Option Vec3 × Option ℚ), nd.nearestNeighbor t nn0 nnd0 = some r →
    (r = (nn0, nnd0) ∨
      ∃ p ∈ nd.toList, r = (some p, some (t.sqDist p))) ∧
    odLe r.2 nnd0 ∧
    ∀ p ∈ nd.toList, odLe r.2 (some (t.sqDist p))
  | .leaf [] b => by
    intro h
    cases h with
    | leaf pts hne => exact absurd rfl hne
  | .leaf (p :: ps) b => by
    intro _ t nn0 nnd0 r hr
    simp only [Node.nearestNeighbor, Option.some.injEq] at hr
    subst hr
    split
    · next hlt =>
      refine ⟨Or.inr ⟨(leafMin t p ps).2, by simpa using leafMin_mem t p ps, ?_⟩, ?_, ?_⟩
      · rw [← leafMin_fst]
      · exact odLe_of_odLt _ _ hlt
      · intro q hq
        show (leafMin t p ps).1 ≤ t.sqDist q
        exact leafMin_le t p ps q (by simpa using hq)
    · next hnlt =>
      refine ⟨Or.inl rfl, odLe_refl _, ?_⟩
      intro q hq
      have h1 : odLe nnd0 (some (leafMin t p ps).1) :=
        odLe_of_not_odLt _ _ (by simpa using hnlt)
      refine odLe_trans _ _ _ h1 ?_
      show (leafMin t p ps).1 ≤ t.sqDist q
      exact leafMin_le t p ps q (by simpa using hq)
  | .inner [] b => by
    intro h
    cases h with
    | inner cs hne hcs => exact absurd rfl hne
  | .inner (c :: rest) b => by
    intro h t nn0 nnd0 r hr
    have hcs : ∀ x ∈ c :: rest, WF x := by
      cases h with
      | inner cs hne hcs => exact hcs
    rw [Node.nearestNeighbor] at hr
    rcases hcd : closestD t c rest with _ | di
    · rw [hcd] at hr
      exact Option.noConfusion hr
    rw [hcd] at hr
    dsimp only at hr
    rcases hs1 : ((c :: rest).getD di.2 c).nearestNeighbor t nn0 nnd0 with _ | s1
    · rw [hs1] at hr
      exact Option.noConfusion hr
    rw [hs1] at hr
    dsimp only at hr
    have hccmem : (c :: rest).getD di.2 c ∈ c :: rest :=
      getD_mem _ _ _ (by simp)
    obtain ⟨hP1, hP2, hP3⟩ :=
      nn_spec ((c :: rest).getD di.2 c) (hcs _ hccmem) t nn0 nnd0 s1 hs1
    obtain ⟨hL1, hL2, hL3⟩ := nnLoop_spec (c :: rest) hcs t 0 di.2 s1.1 s1.2 r hr
    refine ⟨?_, odLe_trans _ _ _ hL2 hP2, ?_⟩
    · rcases hL1 with h1 | ⟨p, hp, hp2⟩
      · rcases hP1 with h2 | ⟨p, hp, hp2⟩
        · exact Or.inl (by rw [h1, h2])
        · refine Or.inr ⟨p, ?_, by rw [h1, hp2]⟩
          simp only [toList_inner]
          exact (mem_toListL p _).mpr ⟨_, hccmem, hp⟩
      · exact Or.inr ⟨p, by simpa using hp, hp2⟩
    · intro p hp
      simp only [toList_inner] at hp
      rw [mem_toListL_idx] at hp
      obtain ⟨j, hj, hpj⟩ := hp
      by_cases hsk : 0 + j = di.2
      · have hj' : di.2 < (c :: rest).length := by omega
        have hpj' : p ∈ ((c :: rest).getD di.2 c).toList := by
          rw [getD_eq_get _ _ _ hj']
          have hij : di.2 = j := by omega
          have heq : ((c :: rest).get ⟨di.2, hj'⟩) =
              (c :: rest).get ⟨j, hj⟩ := by
            congr 1
            exact Fin.ext hij
          rw [heq]
          exact hpj
        exact odLe_trans _ _ _ hL2 (hP3 p hpj')
      · exact hL3 j hj hsk p hpj
  termination_by nd => sizeOf nd
  decreasing_by
  all_goals simp_wf
  all_goals first
    | omega
    | exact sizeOf_getElemD_lt _ _ _ _

theorem nnLoop_spec : ∀ cs : List Node, (∀ x ∈ cs, WF x) → ∀ (t : Vec3) (i skip : ℕ)
    (nn0 : Option Vec3) (nnd0 : Option ℚ) (r : Option Vec3 × Option ℚ),
    nnLoop t cs i skip nn0 nnd0 = some r →
    (r = (nn0, nnd0) ∨
      ∃ p ∈ toListL cs, r = (some p, some (t.sqDist p))) ∧
    odLe r.2 nnd0 ∧
    ∀ j (hj : j < cs.length), i + j ≠ skip →
      ∀ p ∈ (cs.get ⟨j, hj⟩).toList,
        odLe r.2 (some (t.sqDist p))
  | [] => by
    intro _ t i skip nn0 nnd0 r hr
    simp only [nnLoop, Option.some.injEq] at hr
    subst hr
    refine ⟨Or.inl rfl, odLe_refl _, ?_⟩
    intro j hj
    simp at hj
  | c :: rest => by
    intro h t i skip nn0 nnd0 r hr
    have hwc := h c (by simp)
    have hrest : ∀ x ∈ rest, WF x := fun x hx => h x (by simp [hx])
    simp only [nnLoop] at hr
    by_cases hskip : i = skip
    · rw [if_pos hskip] at hr
      obtain ⟨hL1, hL2, hL3⟩ := nnLoop_spec rest hrest t (i + 1) skip nn0 nnd0 r hr
      refine ⟨?_, hL2, ?_⟩
      · rcases hL1 with h1 | ⟨p, hp, hp2⟩
        · exact Or.inl h1
        · exact Or.inr ⟨p, by simp [hp], hp2⟩
      · intro j hj hne p hp
        cases j with
        | zero => exact absurd (by omega) hne
        | succ j => exact hL3 j (by simpa using hj) (by omega) p (by simpa using hp)
    · rw [if_neg hskip] at hr
      by_cases hgrow : growBoxInside c.bbox nnd0 t = true
      · rw [if_pos hgrow] at hr
        rcases hP : c.nearestNeighbor t nn0 nnd0 with _ | s
        · rw [hP] at hr
          exact Option.noConfusion hr
        rw [hP] at hr
        dsimp only at hr
        obtain ⟨hP1, hP2, hP3⟩ := nn_spec c hwc t nn0 nnd0 s hP
        by_cases hlt : odLt s.2 nnd0 = true
        · rw [if_pos hlt] at hr
          obtain ⟨hL1, hL2, hL3⟩ := nnLoop_spec rest hrest t (i + 1) skip s.1 s.2 r hr
          have hP2' : odLe s.2 nnd0 := odLe_of_odLt _ _ hlt
          refine ⟨?_, odLe_trans _ _ _ hL2 hP2', ?_⟩
          · rcases hL1 with h1 | ⟨p, hp, hp2⟩
            · rcases hP1 with h2 | ⟨p, hp, hp2⟩
              · exact Or.inl (by rw [h1, h2])
              · exact Or.inr ⟨p, by simp [hp], by rw [h1, hp2]⟩
            · exact Or.inr ⟨p, by simp [hp], hp2⟩
          · intro j hj hne p hp
            cases j with
            | zero => exact odLe_trans _ _ _ hL2 (hP3 p (by simpa using hp))
            | succ j => exact hL3 j (by simpa using hj) (by omega) p (by simpa using hp)
        · rw [if_neg hlt] at hr
          obtain ⟨hL1, hL2, hL3⟩ := nnLoop_spec rest hrest t (i + 1) skip nn0 nnd0 r hr
          have hge : odLe nnd0 s.2 :=
            odLe_of_not_odLt _ _ (by simpa using hlt)
          refine ⟨?_, hL2, ?_⟩
          · rcases hL1 with h1 | ⟨p, hp, hp2⟩
            · exact Or.inl h1
            · exact Or.inr ⟨p, by simp [hp], hp2⟩
          · intro j hj hne p hp
            cases j with
            | zero =>
              have h3 := hP3 p (by simpa using hp)
              exact odLe_trans _ _ _ hL2 (odLe_trans _ _ _ hge h3)
            | succ j => exact hL3 j (by simpa using hj) (by omega) p (by simpa using hp)
      · rw [if_neg hgrow] at hr
        obtain ⟨hL1, hL2, hL3⟩ := nnLoop_spec rest hrest t (i + 1) skip nn0 nnd0 r hr
        refine ⟨?_, hL2, ?_⟩
        · rcases hL1 with h1 | ⟨p, hp, hp2⟩
          · exact Or.inl h1
          · exact Or.inr ⟨p, by simp [hp], hp2⟩
        · intro j hj hne p hp
          cases j with
          | zero =>
            have hb : c.bbox.inside p = true := mem_bbox c hwc p (by simpa using hp)
            have h3 := grow_prune c.bbox nnd0 t p hb (by simpa using hgrow)
            exact odLe_trans _ _ _ hL2 h3
          | succ j => exact hL3 j (by simpa using hj) (by omega) p (by simpa using hp)
  termination_by cs => sizeOf cs
  decreasing_by
  all_goals simp_wf
  all_goals omega

end

/-! ### Final assembly lemmas -/

theorem nearest_neighbor_found (tr : RTree) (pts : List Vec3) (m : ℕ)
    (h : RTree.new pts m = .ok tr) (t : Vec3) (ro : Option Vec3)
    (hro : tr.nearest_neighbor t = some ro) :
    ∃ nn, ro = some nn ∧ nn ∈ pts ∧
      ∀ p ∈ pts, t.sqDist nn ≤ t.sqDist p := by
  obtain ⟨_, hne, hwf, hperm⟩ := RTree_new_inv pts m tr h
  rw [RTree.nearest_neighbor] at hro
  rcases hR : tr.root.nearestNeighbor t none none with _ | s
  · rw [hR] at hro
    exact Option.noConfusion hro
  rw [hR] at hro
  simp only [Option.map_some', Option.some.injEq] at hro
  subst hro
  obtain ⟨hP1, _, hP3⟩ := nn_spec tr.root hwf t none none s hR
  obtain ⟨p0, hp0⟩ : ∃ p0, p0 ∈ tr.root.toList :=
    List.exists_mem_of_ne_nil _ (wf_toList_ne_nil tr.root hwf)
  have hne2 : s.2 ≠ none := by
    intro habs
    have h3 := hP3 p0 hp0
    rw [habs] at h3
    exact h3
  rcases hP1 with h1 | ⟨p, hp, hp2⟩
  · rw [h1] at hne2
    exact absurd rfl hne2
  · refine ⟨p, ?_, hperm.mem_iff.mp hp, ?_⟩
    · rw [hp2]
    · intro q hq
      have h3 := hP3 q (hperm.mem_iff.mpr hq)
      rw [hp2] at h3
      exact h3

theorem lenL_eq_sum (cs : List Node) : lenL cs = (cs.map Node.len).sum := by
  induction cs with
  | nil => simp
  | cons c rest ih => simp [ih]

/-! ### Claim theorems -/

/-- Tie case of the inner-node search: when `find_closest_child` raises
(an exact center-distance tie, `closestD = none`), `_nearest_neighbor`
raises too. -/
theorem nearestNeighbor_tie (c : Node) (rest : List Node) (b : BoundingBox)
    (t : Vec3) (nn0 : Option Vec3) (nnd0 : Option ℚ)
    (h : closestD t c rest = none) :
    (Node.inner (c :: rest) b).nearestNeighbor t nn0 nnd0 = none := by
  rw [Node.nearestNeighbor, h]

/-- Six collinear input points. -/
def pts6 : List Vec3 :=
  [⟨0, 0, 0⟩, ⟨1, 0, 0⟩, ⟨2, 0, 0⟩, ⟨3, 0, 0⟩, ⟨4, 0, 0⟩, ⟨5, 0, 0⟩]

/-- Left child of the tree built from `pts6` with `max_node_size = 2`:
points 0..2, box center `(1, 0, 0)`. -/
def nodeA : Node :=
  InnerNode [LeafNode [⟨0, 0, 0⟩, ⟨1, 0, 0⟩], LeafNode [⟨2, 0, 0⟩]]

/-- Right child: points 3..5, box center `(4, 0, 0)`. -/
def nodeB : Node :=
  InnerNode [LeafNode [⟨3, 0, 0⟩, ⟨4, 0, 0⟩], LeafNode [⟨5, 0, 0⟩]]

/-- The tree `RTree(pts6, max_node_size=2)` builds. -/
def T6 : RTree :=
  ⟨InnerNode [nodeA, nodeB]⟩

/-- C1: refuted — the claim promises a nearest point for every constructed
index and every target, but `nearest_neighbor` can raise `TypeError`
instead.  On the index built from the six collinear points
`(0,0,0) … (5,0,0)` with `max_node_size = 2`, the root has two children
with box centers `(1,0,0)` and `(4,0,0)`; the target `(2.5, 0, 0)` is at
distance exactly `1.5` from both, so the `min` inside
`find_closest_child` compares the two tuples on equal first components,
falls through to comparing the `Node` objects, which define no ordering,
and raises — modelled by the `none` result.  The method's docstring and
spec §7 promise a returned point, so this is a code bug, not a spec
narrowing. -/
theorem C1_tie_crash :
    RTree.new pts6 2 = .ok T6 ∧
    RTree.nearest_neighbor T6 ⟨mkRat 5 2, 0, 0⟩ = none := by
  refine ⟨rfl, ?_⟩
  show ((Node.inner [nodeA, nodeB]
      (BoundingBox.ofPoints (corners [nodeA, nodeB]))).nearestNeighbor
      ⟨mkRat 5 2, 0, 0⟩ none none).map Prod.fst = none
  rw [nearestNeighbor_tie nodeA [nodeB] _ ⟨mkRat 5 2, 0, 0⟩ none none rfl]
  rfl

/-- C2: `points_in_sphere(center, radius)` yields exactly those input
points within distance `radius` of the center (boundary-inclusive, as a
multiset: a permutation of the filtered input), and the encoded membership
test says exactly `distance ≤ radius` over the reals. -/
theorem C2_points_in_sphere_exact (pts : List Vec3) (m : ℕ) (tr : RTree)
    (c : Vec3) (r : ℚ) (h : RTree.new pts m = .ok tr) :
    List.Perm (tr.points_in_sphere c r)
      (pts.filter (fun p => sqrtLe (c.sqDist p) r)) ∧
    ∀ p : Vec3, sqrtLe (c.sqDist p) r = true ↔
      Real.sqrt ((c.sqDist p : ℚ) : ℝ) ≤ (r : ℝ) := by
  obtain ⟨_, _, hwf, hperm⟩ := RTree_new_inv pts m tr h
  refine ⟨?_, fun p => sqrtLe_iff_real _ _ (sqDist_nonneg c p)⟩
  exact (pis_perm tr.root hwf c r).trans (hperm.filter _)

/-- C2 witness: a concrete index and sphere query. -/
theorem C2_witness :
    RTree.new [⟨0, 0, 0⟩, ⟨3, 0, 0⟩] 5 = .ok ⟨LeafNode [⟨0, 0, 0⟩, ⟨3, 0, 0⟩]⟩ ∧
    (List.Perm (RTree.points_in_sphere ⟨LeafNode [⟨0, 0, 0⟩, ⟨3, 0, 0⟩]⟩ ⟨0, 0, 0⟩ 1)
      (([⟨0, 0, 0⟩, ⟨3, 0, 0⟩] : List Vec3).filter
        (fun p => sqrtLe (Vec3.sqDist ⟨0, 0, 0⟩ p) 1)) ∧
    ∀ p : Vec3, sqrtLe (Vec3.sqDist ⟨0, 0, 0⟩ p) 1 = true ↔
      Real.sqrt ((Vec3.sqDist ⟨0, 0, 0⟩ p : ℚ) : ℝ) ≤ ((1 : ℚ) : ℝ)) :=
  ⟨rfl, C2_points_in_sphere_exact [⟨0, 0, 0⟩, ⟨3, 0, 0⟩] 5
    ⟨LeafNode [⟨0, 0, 0⟩, ⟨3, 0, 0⟩]⟩ ⟨0, 0, 0⟩ 1 rfl⟩

/-- C3: `points_in_bbox(box)` yields exactly those input points inside the
query box (boundary-inclusive: the inside test is a conjunction of
non-strict per-axis comparisons), pruning losing no qualifying point. -/
theorem C3_points_in_bbox_exact (pts : List Vec3) (m : ℕ) (tr : RTree)
    (qb : BoundingBox) (h : RTree.new pts m = .ok tr) :
    List.Perm (tr.points_in_bbox qb) (pts.filter (fun p => qb.inside p)) ∧
    ∀ p : Vec3, qb.inside p = true ↔
      (qb.extmin.x ≤ p.x ∧ p.x ≤ qb.extmax.x) ∧
      (qb.extmin.y ≤ p.y ∧ p.y ≤ qb.extmax.y) ∧
      (qb.extmin.z ≤ p.z ∧ p.z ≤ qb.extmax.z) := by
  obtain ⟨_, _, hwf, hperm⟩ := RTree_new_inv pts m tr h
  exact ⟨(pib_perm tr.root hwf qb).trans (hperm.filter _),
    fun p => BoundingBox.inside_iff qb p⟩

/-- C3 witness: a concrete index and box query. -/
theorem C3_witness :
    RTree.new [⟨0, 0, 0⟩, ⟨3, 0, 0⟩] 5 = .ok ⟨LeafNode [⟨0, 0, 0⟩, ⟨3, 0, 0⟩]⟩ ∧
    (List.Perm
      (RTree.points_in_bbox ⟨LeafNode [⟨0, 0, 0⟩, ⟨3, 0, 0⟩]⟩ ⟨⟨0, 0, 0⟩, ⟨1, 1, 1⟩⟩)
      (([⟨0, 0, 0⟩, ⟨3, 0, 0⟩] : List Vec3).filter
        (fun p => BoundingBox.inside ⟨⟨0, 0, 0⟩, ⟨1, 1, 1⟩⟩ p)) ∧
    ∀ p : Vec3, BoundingBox.inside ⟨⟨0, 0, 0⟩, ⟨1, 1, 1⟩⟩ p = true ↔
      ((0 : ℚ) ≤ p.x ∧ p.x ≤ 1) ∧ ((0 : ℚ) ≤ p.y ∧ p.y ≤ 1) ∧
      ((0 : ℚ) ≤ p.z ∧ p.z ≤ 1)) :=
  ⟨rfl, C3_points_in_bbox_exact [⟨0, 0, 0⟩, ⟨3, 0, 0⟩] 5
    ⟨LeafNode [⟨0, 0, 0⟩, ⟨3, 0, 0⟩]⟩ ⟨⟨0, 0, 0⟩, ⟨1, 1, 1⟩⟩ rfl⟩

/-- The number of children of a node (0 for a leaf). -/
def childCount : Node → ℕ
  | .leaf _ _ => 0
  | .inner cs _ => cs.length

/-- Seven collinear points used to exhibit the miscounted split of C4. -/
def pts7 : List Vec3 :=
  [⟨0, 0, 0⟩, ⟨1, 0, 0⟩, ⟨2, 0, 0⟩, ⟨3, 0, 0⟩, ⟨4, 0, 0⟩, ⟨5, 0, 0⟩, ⟨6, 0, 0⟩]

/-- C4 counterexample: for 7 points and `max_node_size = 5`, the split
produces 4 children (groups of size `k = ceil(7/5) = 2`), not
`ceil(7/5) = 2` as the claim states. -/
theorem C4_counterexample :
    (make_node (5 * 7 + 1) pts7 5).map childCount = some 4 ∧ cdiv 7 5 = 2 ∧
    (make_node (5 * 7 + 1) pts7 5).map childCount ≠ some (cdiv 7 5) := by
  refine ⟨rfl, rfl, ?_⟩
  intro habs
  have h4 : (make_node (5 * 7 + 1) pts7 5).map childCount = some 4 := rfl
  rw [h4] at habs
  have h5 : cdiv 7 5 = 2 := rfl
  rw [h5] at habs
  exact absurd habs (by decide)

/-- C4 (amended): `box_split` sorts the points along the widest axis and
cuts them into contiguous groups of size `k = ceil(n / max_node_size)`
(the last group possibly smaller), so the resulting inner node's child
count equals `ceil(n / k)` — not `ceil(n / max_node_size)`. -/
theorem C4_split_group_count (pts : List Vec3) (m : ℕ) (hm : 2 ≤ m)
    (hlt : m < pts.length) :
    ∃ cs, make_node (5 * pts.length + 1) pts m = some (InnerNode cs) ∧
      cs.length = cdiv pts.length (cdiv pts.length m) := by
  have hne : pts ≠ [] := by
    intro habs
    rw [habs] at hlt
    simp at hlt
  obtain ⟨nd, h1, _, _, _, h5⟩ :=
    make_node_spec pts.length pts m (5 * pts.length + 1) rfl hm hne (le_refl _)
  obtain ⟨cs, rfl, hcnt⟩ := h5 hlt
  exact ⟨cs, h1, hcnt⟩

/-- C4 witness: the amended count at the concrete 7-point input. -/
theorem C4_witness :
    2 ≤ 5 ∧ 5 < pts7.length ∧
    ∃ cs, make_node (5 * pts7.length + 1) pts7 5 = some (InnerNode cs) ∧
      cs.length = cdiv pts7.length (cdiv pts7.length 5) :=
  ⟨by decide, by decide, C4_split_group_count pts7 5 (by decide) (by decide)⟩

/-- C5: `len` of a constructed index equals the number of points supplied
(counting duplicates); a leaf's size is its point count, an inner node's
size is the sum of its children's sizes, and every node of the tree has
positive size. -/
theorem C5_size_invariant (pts : List Vec3) (m : ℕ) (tr : RTree)
    (h : RTree.new pts m = .ok tr) :
    tr.len = pts.length ∧
    (∀ (ps : List Vec3) (b : BoundingBox), (Node.leaf ps b).len = ps.length) ∧
    (∀ (cs : List Node) (b : BoundingBox),
      (Node.inner cs b).len = (cs.map Node.len).sum) ∧
    ∀ nd ∈ tr.root.subnodes, 0 < nd.len := by
  obtain ⟨_, _, hwf, hperm⟩ := RTree_new_inv pts m tr h
  refine ⟨?_, fun ps b => by simp, fun cs b => by simp [lenL_eq_sum], ?_⟩
  · rw [RTree.len, len_eq_toList_length, hperm.length_eq]
  · intro nd hnd
    have hw := wf_subnodes tr.root hwf nd hnd
    have hne := wf_toList_ne_nil nd hw
    rw [len_eq_toList_length]
    exact List.length_pos.mpr hne

/-- C5 witness: a concrete one-point index. -/
theorem C5_witness :
    RTree.new [⟨2, 3, 4⟩] 5 = .ok ⟨LeafNode [⟨2, 3, 4⟩]⟩ ∧
    (RTree.len ⟨LeafNode [⟨2, 3, 4⟩]⟩ = ([⟨2, 3, 4⟩] : List Vec3).length ∧
    (∀ (ps : List Vec3) (b : BoundingBox), (Node.leaf ps b).len = ps.length) ∧
    (∀ (cs : List Node) (b : BoundingBox),
      (Node.inner cs b).len = (cs.map Node.len).sum) ∧
    ∀ nd ∈ (LeafNode [⟨2, 3, 4⟩]).subnodes, 0 < nd.len) :=
  ⟨rfl, C5_size_invariant [⟨2, 3, 4⟩] 5 ⟨LeafNode [⟨2, 3, 4⟩]⟩ rfl⟩

/-- C6: `contains(p)` is true for every input point (tolerance-based
comparison by `isclose`), and false for every point beyond tolerance of
all stored points — in particular for points outside the bounding volume
by more than the tolerance. -/
theorem C6_containment (pts : List Vec3) (m : ℕ) (tr : RTree)
    (h : RTree.new pts m = .ok tr) :
    (∀ p ∈ pts, tr.contains p = true) ∧
    (∀ q : Vec3, (∀ p ∈ pts, q.isclose p = false) → tr.contains q = false) := by
  obtain ⟨_, _, hwf, hperm⟩ := RTree_new_inv pts m tr h
  constructor
  · intro p hp
    rw [RTree.contains]
    exact contains_complete tr.root hwf p (hperm.mem_iff.mpr hp)
  · intro q hq
    rw [RTree.contains]
    by_contra habs
    have h1 : tr.root.contains q = true := by
      match htrue : tr.root.contains q with
      | true => rfl
      | false => exact absurd htrue habs
    obtain ⟨p, hp, hclose⟩ := contains_sound tr.root q h1
    rw [hq p (hperm.mem_iff.mp hp)] at hclose
    exact Bool.noConfusion hclose

/-- C6 witness: a concrete one-point index. -/
theorem C6_witness :
    RTree.new [⟨2, 3, 4⟩] 5 = .ok ⟨LeafNode [⟨2, 3, 4⟩]⟩ ∧
    ((∀ p ∈ [(⟨2, 3, 4⟩ : Vec3)], RTree.contains ⟨LeafNode [⟨2, 3, 4⟩]⟩ p = true) ∧
    (∀ q : Vec3, (∀ p ∈ [(⟨2, 3, 4⟩ : Vec3)], q.isclose p = false) →
      RTree.contains ⟨LeafNode [⟨2, 3, 4⟩]⟩ q = false)) :=
  ⟨rfl, C6_containment [⟨2, 3, 4⟩] 5 ⟨LeafNode [⟨2, 3, 4⟩]⟩ rfl⟩

/-- C7: construction fails (with a `ValueError`, modelled by
`Except.error`) exactly when the point collection is empty or
`max_node_size < 2`; the validation happens before any node is built, and
for non-empty input with `max_node_size ≥ 2` construction succeeds. -/
theorem C7_construction_validation (pts : List Vec3) (m : ℕ) :
    ((∃ tr, RTree.new pts m = .ok tr) ↔ (pts ≠ [] ∧ 2 ≤ m)) ∧
    (m < 2 → RTree.new pts m = .error "max node size must be > 1") ∧
    (2 ≤ m → pts = [] → RTree.new pts m = .error "no points given") := by
  refine ⟨⟨?_, ?_⟩, ?_, ?_⟩
  · rintro ⟨tr, htr⟩
    obtain ⟨h1, h2, _, _⟩ := RTree_new_inv pts m tr htr
    exact ⟨h2, h1⟩
  · rintro ⟨hne, hm⟩
    exact RTree_new_ok pts m hm hne
  · intro hm
    rw [RTree.new, if_pos hm]
  · intro hm hpts
    rw [RTree.new, if_neg (by omega), if_pos (by simp [hpts])]

/-- C9: the recursive construction terminates for every nonempty point
list and `max_node_size ≥ 2`: fuel proportional to the point count
(`5n + 1` calls) already suffices, because each split produces groups of
size `k = ceil(n / max_node_size)`, which is strictly smaller than `n`
whenever `n > max_node_size ≥ 2`. -/
theorem C9_construction_terminates (pts : List Vec3) (m : ℕ) (hm : 2 ≤ m)
    (hne : pts ≠ []) :
    (∃ nd, make_node (5 * pts.length + 1) pts m = some nd) ∧
    ∀ n : ℕ, m < n → cdiv n m < n := by
  constructor
  · obtain ⟨nd, h1, _⟩ :=
      make_node_spec pts.length pts m (5 * pts.length + 1) rfl hm hne (le_refl _)
    exact ⟨nd, h1⟩
  · intro n hn
    have h1 := two_cdiv_le n m hm
    omega

/-- C9 witness: concrete three-point input with `max_node_size = 2`. -/
theorem C9_witness :
    2 ≤ 2 ∧ ([(⟨0, 0, 0⟩ : Vec3), ⟨1, 0, 0⟩, ⟨2, 0, 0⟩] ≠ []) ∧
    ((∃ nd, make_node (5 * ([(⟨0, 0, 0⟩ : Vec3), ⟨1, 0, 0⟩, ⟨2, 0, 0⟩]).length + 1)
        [⟨0, 0, 0⟩, ⟨1, 0, 0⟩, ⟨2, 0, 0⟩] 2 = some nd) ∧
      ∀ n : ℕ, 2 < n → cdiv n 2 < n) :=
  ⟨by decide, by simp, C9_construction_terminates [⟨0, 0, 0⟩, ⟨1, 0, 0⟩, ⟨2, 0, 0⟩] 2
    (by decide) (by simp)⟩

/-- C8: in a constructed tree, every node's stored bounding box is the
tight axis-aligned bound of the points reachable under it: a leaf's box
is the tight bound (componentwise minima/maxima) of its points, and an
inner node's box is the union of its children's boxes.  Boxes are
assigned once at node construction; in this purely functional model no
operation can change them afterwards. -/
theorem C8_tight_boxes (pts : List Vec3) (m : ℕ) (tr : RTree)
    (h : RTree.new pts m = .ok tr) :
    ∀ nd ∈ tr.root.subnodes, nd.bbox = BoundingBox.ofPoints nd.toList ∧
      (∀ (ps : List Vec3) (b : BoundingBox), nd = Node.leaf ps b →
        b = BoundingBox.ofPoints ps) ∧
      (∀ (cs : List Node) (b : BoundingBox), nd = Node.inner cs b →
        b = BoundingBox.ofPoints (corners cs)) := by
  obtain ⟨_, _, hwf, _⟩ := RTree_new_inv pts m tr h
  intro nd hnd
  have hw := wf_subnodes tr.root hwf nd hnd
  refine ⟨wf_bbox_eq nd hw, ?_, ?_⟩
  · rintro ps b rfl
    cases hw with
    | leaf pts hne => rfl
  · rintro cs b rfl
    cases hw with
    | inner cs hne hcs => rfl

/-- C8 witness: a concrete one-point index. -/
theorem C8_witness :
    RTree.new [⟨2, 3, 4⟩] 5 = .ok ⟨LeafNode [⟨2, 3, 4⟩]⟩ ∧
    ∀ nd ∈ (LeafNode [⟨2, 3, 4⟩]).subnodes,
      nd.bbox = BoundingBox.ofPoints nd.toList ∧
      (∀ (ps : List Vec3) (b : BoundingBox), nd = Node.leaf ps b →
        b = BoundingBox.ofPoints ps) ∧
      (∀ (cs : List Node) (b : BoundingBox), nd = Node.inner cs b →
        b = BoundingBox.ofPoints (corners cs)) :=
  ⟨rfl, C8_tight_boxes [⟨2, 3, 4⟩] 5 ⟨LeafNode [⟨2, 3, 4⟩]⟩ rfl⟩

/-! ### Store-level model for the frame property (C10).

Python lists are mutable heap objects: `RTree.__init__` copies the
caller's iterable with `list(points)`, `box_split` sorts its list argument
in place, and slicing (`points[i : i + k]`) allocates fresh lists.  To
state that construction never mutates the caller's list, the construction
is re-run over an explicit store of list objects: references are indices
into the store, `list(...)` and slicing allocate fresh cells, and the
in-place `sort` writes through the reference it was given. -/

/-- A store of Python list objects; a reference is an index. -/
structure Store where
  cells : List (List Vec3)

/-- Dereference (a dangling reference reads as `[]`; never used). -/
def Store.read (s : Store) (r : ℕ) : List Vec3 := s.cells.getD r []

/-- Allocate a fresh list object, returning the new store and reference. -/
def Store.alloc (s : Store) (v : List Vec3) : Store × ℕ :=
  (⟨s.cells ++ [v]⟩, s.cells.length)

/-- Overwrite the contents of an existing list object (in-place `sort`). -/
def Store.write (s : Store) (r : ℕ) (v : List Vec3) : Store :=
  ⟨s.cells.set r v⟩

mutual

/-- Models `make_node` over the store: the points argument is a reference. -/
def make_nodeS : ℕ → ℕ → ℕ → Store → Option Node × Store
  | 0, _, _, s => (none, s)
  | f + 1, r, max_size, s =>
    if (s.read r).length ≤ max_size then (some (LeafNode (s.read r)), s)
    else
      match box_splitS f r max_size s with
      | (some cs, s2) => (some (InnerNode cs), s2)
      | (none, s2) => (none, s2)

/-- Models `box_split` over the store: `points.sort(key=...)` mutates the list
object in place; each slice `points[i : i + k]` is a fresh allocation,
performed in `make_nodesS`. -/
def box_splitS : ℕ → ℕ → ℕ → Store → Option (List Node) × Store
  | 0, _, _, s => (none, s)
  | f + 1, r, max_size, s =>
    let points := s.read r
    let sorted := sortByKey (coordAt (widestDim (BoundingBox.ofPoints points).size)) points
    let s1 := s.write r sorted
    make_nodesS f (chunks points.length (cdiv points.length max_size) sorted) max_size s1

/-- Build one node per group, allocating each group as a fresh list. -/
def make_nodesS : ℕ → List (List Vec3) → ℕ → Store → Option (List Node) × Store
  | 0, _, _, s => (none, s)
  | _ + 1, [], _, s => (some [], s)
  | f + 1, g :: gs, max_size, s =>
    match make_nodeS f (s.alloc g).2 max_size (s.alloc g).1 with
    | (some nd, s2) =>
      match make_nodesS f gs max_size s2 with
      | (some nds, s3) => (some (nd :: nds), s3)
      | (none, s3) => (none, s3)
    | (none, s2) => (none, s2)

end

/-- Models `RTree.__init__` over the store: validate, copy the caller's list into
a fresh cell (`list(points)`), and build from the copy. -/
def RTree.newS (r : ℕ) (max_node_size : ℕ) (s : Store) : Except String RTree × Store :=
  if max_node_size < 2 then (.error "max node size must be > 1", s)
  else
    let s1 := (s.alloc (s.read r)).1
    let rc := (s.alloc (s.read r)).2
    if (s1.read rc).length = 0 then (.error "no points given", s1)
    else
      match make_nodeS (5 * (s1.read rc).length + 1) rc max_node_size s1 with
      | (some nd, s2) => (.ok ⟨nd⟩, s2)
      | (none, s2) => (.error "unreachable", s2)

theorem set_getD_ne {α : Type} :
    ∀ (l : List α) (i j : ℕ) (v : α) (d : α), i ≠ j → (l.set i v).getD j d = l.getD j d
  | [], _, _, _, _, _ => rfl
  | a :: as, 0, 0, v, d, h => absurd rfl h
  | a :: as, 0, j + 1, v, d, _ => rfl
  | a :: as, i + 1, 0, v, d, _ => rfl
  | a :: as, i + 1, j + 1, v, d, h => set_getD_ne as i j v d (by omega)

theorem getD_append_lt {α : Type} :
    ∀ (l1 l2 : List α) (j : ℕ) (d : α), j < l1.length →
      (l1 ++ l2).getD j d = l1.getD j d
  | [], _, _, _, h => by simp at h
  | _ :: _, _, 0, _, _ => rfl
  | _ :: as, l2, j + 1, d, h => getD_append_lt as l2 j d (by simpa using h)

theorem read_alloc_lt (s : Store) (v : List Vec3) (j : ℕ) (hj : j < s.cells.length) :
    (s.alloc v).1.read j = s.read j := by
  simp only [Store.alloc, Store.read]
  exact getD_append_lt s.cells [v] j [] hj

theorem read_write_ne (s : Store) (r : ℕ) (v : List Vec3) (j : ℕ) (hj : j ≠ r) :
    (s.write r v).read j = s.read j :=
  set_getD_ne s.cells r j v [] (fun h => hj h.symm)

mutual

theorem make_nodeS_frame : ∀ (f r m : ℕ) (s : Store),
    s.cells.length ≤ (make_nodeS f r m s).2.cells.length ∧
    ∀ j, j < s.cells.length → j ≠ r → (make_nodeS f r m s).2.read j = s.read j
  | 0, r, m, s => by
    rw [make_nodeS]
    exact ⟨le_refl _, fun j _ _ => rfl⟩
  | f + 1, r, m, s => by
    rw [make_nodeS]
    by_cases hcap : (s.read r).length ≤ m
    · rw [if_pos hcap]
      exact ⟨le_refl _, fun j _ _ => rfl⟩
    · rw [if_neg hcap]
      obtain ⟨hmono, hframe⟩ := box_splitS_frame f r m s
      match hbs : box_splitS f r m s with
      | (some cs, s2) =>
        rw [hbs] at hmono hframe
        dsimp only at hmono hframe ⊢
        exact ⟨hmono, hframe⟩
      | (none, s2) =>
        rw [hbs] at hmono hframe
        dsimp only at hmono hframe ⊢
        exact ⟨hmono, hframe⟩

theorem box_splitS_frame : ∀ (f r m : ℕ) (s : Store),
    s.cells.length ≤ (box_splitS f r m s).2.cells.length ∧
    ∀ j, j < s.cells.length → j ≠ r → (box_splitS f r m s).2.read j = s.read j
  | 0, r, m, s => by
    rw [box_splitS]
    exact ⟨le_refl _, fun j _ _ => rfl⟩
  | f + 1, r, m, s => by
    rw [box_splitS]
    have hlen : (s.write r (sortByKey (coordAt (widestDim
        (BoundingBox.ofPoints (s.read r)).size)) (s.read r))).cells.length =
        s.cells.length := by
      simp [Store.write]
    obtain ⟨hmono, hframe⟩ := make_nodesS_frame f
      (chunks (s.read r).length (cdiv (s.read r).length m)
        (sortByKey (coordAt (widestDim (BoundingBox.ofPoints (s.read r)).size)) (s.read r)))
      m
      (s.write r (sortByKey (coordAt (widestDim
        (BoundingBox.ofPoints (s.read r)).size)) (s.read r)))
    refine ⟨by rw [hlen] at hmono; exact hmono, ?_⟩
    intro j hj hjr
    rw [hframe j (by rw [hlen]; exact hj), read_write_ne s r _ j hjr]

theorem make_nodesS_frame : ∀ (f : ℕ) (gs : List (List Vec3)) (m : ℕ) (s : Store),
    s.cells.length ≤ (make_nodesS f gs m s).2.cells.length ∧
    ∀ j, j < s.cells.length → (make_nodesS f gs m s).2.read j = s.read j
  | 0, gs, m, s => by
    rw [make_nodesS]
    exact ⟨le_refl _, fun j _ => rfl⟩
  | f + 1, [], m, s => by
    rw [make_nodesS]
    exact ⟨le_refl _, fun j _ => rfl⟩
  | f + 1, g :: gs, m, s => by
    rw [make_nodesS]
    have halloc_len : (s.alloc g).1.cells.length = s.cells.length + 1 := by
      simp [Store.alloc]
    obtain ⟨hm1, hf1⟩ := make_nodeS_frame f (s.alloc g).2 m (s.alloc g).1
    match h1 : make_nodeS f (s.alloc g).2 m (s.alloc g).1 with
    | (some nd, s2) =>
      rw [h1] at hm1 hf1
      dsimp only at hm1 hf1
      obtain ⟨hm2, hf2⟩ := make_nodesS_frame f gs m s2
      match h2 : make_nodesS f gs m s2 with
      | (some nds, s3) =>
        rw [h2] at hm2 hf2
        dsimp only
        rw [h2]
        dsimp only at hm2 hf2 ⊢
        refine ⟨by omega, ?_⟩
        intro j hj
        have hj1 : j < (s.alloc g).1.cells.length := by omega
        have hjr : j ≠ (s.alloc g).2 := by
          simp only [Store.alloc] at hj ⊢
          omega
        rw [hf2 j (by omega), hf1 j hj1 hjr, read_alloc_lt s g j hj]
      | (none, s3) =>
        rw [h2] at hm2 hf2
        dsimp only
        rw [h2]
        dsimp only at hm2 hf2 ⊢
        refine ⟨by omega, ?_⟩
        intro j hj
        have hj1 : j < (s.alloc g).1.cells.length := by omega
        have hjr : j ≠ (s.alloc g).2 := by
          simp only [Store.alloc] at hj ⊢
          omega
        rw [hf2 j (by omega), hf1 j hj1 hjr, read_alloc_lt s g j hj]
    | (none, s2) =>
      rw [h1] at hm1 hf1
      dsimp only at hm1 hf1 ⊢
      refine ⟨by omega, ?_⟩
      intro j hj
      have hj1 : j < (s.alloc g).1.cells.length := by omega
      have hjr : j ≠ (s.alloc g).2 := by
        simp only [Store.alloc] at hj ⊢
        omega
      rw [hf1 j hj1 hjr, read_alloc_lt s g j hj]

end

/-- C10: constructing an index never modifies the caller's point list (nor
any other pre-existing list object): the constructor copies the supplied
collection into a fresh cell, and the in-place sorts of the split step act
only on that copy and on freshly allocated sublists. -/
theorem C10_no_caller_mutation (r m : ℕ) (s : Store) (hr : r < s.cells.length) :
    ((RTree.newS r m s).2).read r = s.read r ∧
    ∀ j, j < s.cells.length → ((RTree.newS r m s).2).read j = s.read j := by
  have main : ∀ j, j < s.cells.length → ((RTree.newS r m s).2).read j = s.read j := by
    intro j hj
    rw [RTree.newS]
    by_cases h1 : m < 2
    · rw [if_pos h1]
    · rw [if_neg h1]
      have halloc_len : (s.alloc (s.read r)).1.cells.length = s.cells.length + 1 := by
        simp [Store.alloc]
      have hread : ∀ x, x < s.cells.length →
          (s.alloc (s.read r)).1.read x = s.read x :=
        fun x hx => read_alloc_lt s (s.read r) x hx
      by_cases h2 : ((s.alloc (s.read r)).1.read (s.alloc (s.read r)).2).length = 0
      · rw [if_pos h2]
        exact hread j hj
      · rw [if_neg h2]
        obtain ⟨hm1, hf1⟩ := make_nodeS_frame
          (5 * ((s.alloc (s.read r)).1.read (s.alloc (s.read r)).2).length + 1)
          (s.alloc (s.read r)).2 m (s.alloc (s.read r)).1
        have hjr : j ≠ (s.alloc (s.read r)).2 := by
          simp only [Store.alloc] at hj ⊢
          omega
        match h3 : make_nodeS
            (5 * ((s.alloc (s.read r)).1.read (s.alloc (s.read r)).2).length + 1)
            (s.alloc (s.read r)).2 m (s.alloc (s.read r)).1 with
        | (some nd, s2) =>
          rw [h3] at hf1
          rw [hf1 j (by omega) hjr, hread j hj]
        | (none, s2) =>
          rw [h3] at hf1
          rw [hf1 j (by omega) hjr, hread j hj]
  exact ⟨main r hr, main⟩

/-- C10 witness: a concrete one-cell store holding the caller's list. -/
theorem C10_witness :
    (0 : ℕ) < (Store.mk [[⟨1, 2, 3⟩]]).cells.length ∧
    (((RTree.newS 0 5 (Store.mk [[⟨1, 2, 3⟩]])).2).read 0 =
      (Store.mk [[⟨1, 2, 3⟩]]).read 0 ∧
    ∀ j, j < (Store.mk [[⟨1, 2, 3⟩]]).cells.length →
      ((RTree.newS 0 5 (Store.mk [[⟨1, 2, 3⟩]])).2).read j =
        (Store.mk [[⟨1, 2, 3⟩]]).read j) :=
  ⟨by decide, C10_no_caller_mutation 0 5 (Store.mk [[⟨1, 2, 3⟩]]) (by decide)⟩
